import Mathlib

/-!
Verification of the DSNToDoApp daily-rollover engine ("DailyOps") against its
design document.

Strings from the Python source are modelled as `List Char` (so that every
string operation is a structurally recursive, kernel-computable function).
Calendar dates are modelled as day ordinals (`Nat`) with day 0 a Monday, so
that `d % 7` is exactly Python's `date.weekday()` (Monday = 0).  Store
timestamps ("YYYY-MM-DD HH:MM:SSZ" values) are modelled as seconds, with day
`d` covering `[d * 86400, (d+1) * 86400)`.
-/

/-- Convert a string literal to its character list. -/
def toL (s : String) : List Char := s.data

/-- Python `s.split(sep)` for a one-character separator: `"a;;b".split(";")`
is `["a", "", "b"]` and `"".split(";")` is `[""]`. -/
def splitOnChar (sep : Char) : List Char → List (List Char)
  | [] => [[]]
  | c :: cs =>
    match splitOnChar sep cs with
    | [] => if c = sep then [[], []] else [[c]]
    | r :: rs => if c = sep then [] :: r :: rs else (c :: r) :: rs

/-- Python `pat in s` (substring containment), specialised to the pattern
being tested against every suffix. -/
def containsSub (pat : List Char) : List Char → Bool
  | [] => pat.isPrefixOf []
  | c :: cs => pat.isPrefixOf (c :: cs) || containsSub pat cs

/-- Python `part.replace("BYDAY=", "")`: delete every (non-overlapping,
left-to-right) occurrence of the 6-character pattern `BYDAY=`. -/
def removeBYDAY : List Char → List Char
  | 'B' :: 'Y' :: 'D' :: 'A' :: 'Y' :: '=' :: rest => removeBYDAY rest
  | c :: cs => c :: removeBYDAY cs
  | [] => []

/-- Leading-whitespace removal (the whitespace classes Python `strip`
removes that can occur in this data). -/
def dropWs : List Char → List Char
  | [] => []
  | c :: cs => if c = ' ' ∨ c = '\t' ∨ c = '\n' ∨ c = '\r' then dropWs cs else c :: cs

/-- Python `s.strip()`. -/
def stripWs (s : List Char) : List Char := (dropWs (dropWs s.reverse).reverse)

/-- Weekday tokens: `weekday_map = ["MO", "TU", "WE", "TH", "FR", "SA", "SU"]`
(src/services/events_service.py line 55). -/
def weekday_map : List (List Char) :=
  [toL "MO", toL "TU", toL "WE", toL "TH", toL "FR", toL "SA", toL "SU"]

/-- Today's token: `today_token = weekday_map[today.weekday()]` (events_service.py line 56);
day ordinal 0 is a Monday, so `weekday() = d % 7`. -/
def today_token (d : Nat) : List Char := weekday_map.getD (d % 7) []

/-- The `BYDAY=` token list of one `;`-separated part:
`[p.strip() for p in part.replace("BYDAY=", "").split(",") if p.strip()]`
(events_service.py line 64). -/
def bydayTokens (part : List Char) : List (List Char) :=
  ((splitOnChar ',' (removeBYDAY part)).map stripWs).filter (fun p => p ≠ [])

/-- The `byday` list computed by the loop over `rrule.split(";")`
(events_service.py lines 61-64): starts `[]`, each part beginning with
`BYDAY=` overwrites it. -/
def parse_byday (parts : List (List Char)) : List (List Char) :=
  parts.foldl (fun acc part =>
    if (toL "BYDAY=").isPrefixOf part then bydayTokens part else acc) []

/-- The routine-materialization guard of events_service.py lines 59-66:
`rrule = recurrence.upper()`; skip unless `"FREQ=WEEKLY" in rrule`; parse
`byday`; skip if `byday` is nonempty and today's token is not in it.
Returns `true` exactly when the routine is materialized on day `d`. -/
def rrule_matches (recurrence : List Char) (d : Nat) : Bool :=
  let rrule := recurrence.map Char.toUpper
  if containsSub (toL "FREQ=WEEKLY") rrule then
    let byday := parse_byday (splitOnChar ';' rrule)
    byday.isEmpty || byday.contains (today_token d)
  else
    false

/-- Modelled from the spec: the spec reads the recurrence grammar as
semicolon-separated `key=value` pairs and speaks of "the FREQ value"; this
extracts the value of the last `FREQ` key (uppercased), `none` when no part
has a `FREQ=` key prefix. -/
def specFreqValue (s : List Char) : Option (List Char) :=
  (splitOnChar ';' (s.map Char.toUpper)).foldl (fun acc part =>
    if (toL "FREQ=").isPrefixOf part then some (part.drop 5) else acc) none

example : rrule_matches (toL "FREQ=WEEKLY;BYDAY=MO,WE,FR") 1 = false := by decide
example : rrule_matches (toL "FREQ=MONTHLY") 3 = false := by decide
example : rrule_matches (toL "FREQ=WEEKLYX") 0 = true := by decide

/-- TaskRec status values (tasks.status select field in pb_bootstrap.py):
`open`, `done`, `cancelled`, `archived` (`opened` stands for `"open"`). -/
inductive Status where
  | opened
  | done
  | cancelled
  | archived
deriving DecidableEq, Repr

/-- TaskRec kind values: `todo`, `event`, `routine`. -/
inductive Kind where
  | todo
  | event
  | routine
deriving DecidableEq, Repr

/-- A `tasks` collection record (schema in pb_bootstrap.py).  Record ids are
modelled as `Nat`; date-valued fields (`journal_date`, `due_date`) hold day
ordinals, timestamp-valued fields (`start_at`, `end_at`) hold seconds; the
float `position` is modelled as `Int` (only whole values occur). -/
structure TaskRec where
  id : Nat
  owner : Nat
  title : List Char
  notes : List Char
  status : Status
  kind : Kind
  priority : Int
  position : Int
  context : Nat
  journal_date : Option Nat
  due_date : Option Nat
  start_at : Option Nat
  end_at : Option Nat
  recurrence : List Char
  migrated_count : Option Nat
  parent_task : Option Nat
deriving DecidableEq, Repr

/-- A `journal_pages` record; `date` is a timestamp in seconds. -/
structure Page where
  id : Nat
  owner : Nat
  date : Nat
deriving DecidableEq, Repr

/-- The remote record store: the two collections the rollover touches, plus
the next fresh record id. -/
structure St where
  tasks : List TaskRec
  pages : List Page
  nextId : Nat
deriving DecidableEq, Repr

/-- Environment of a run: the authenticated user's id, which HTTP requests
(numbered from the start of the run) come back non-2xx (`fail`), and the
effect of interleaved writers on the store just before request `n` is
processed (`ext`). -/
structure Cfg where
  userId : Nat
  fail : Nat → Bool
  ext : Nat → St → St

/-- A computation issuing numbered HTTP requests against the store.  On a
non-2xx response the Python code raises immediately (`raise_for_status`), so
the computation aborts carrying the request counter and the store state at
the moment of the failure. -/
def ReqM (α : Type) : Type := Nat → St → Except (Nat × St) (α × Nat × St)

def reqPure (a : α) : ReqM α := fun n st => .ok (a, n, st)

def reqBind (x : ReqM α) (f : α → ReqM β) : ReqM β := fun n st =>
  match x n st with
  | .error e => .error e
  | .ok (a, n1, st1) => f a n1 st1

/-- One HTTP round trip: interleaved writers act first (`ext`), then either
the request fails (no mutation applied, exception raised) or the server
applies `mutate` and the response is `read` of the new state. -/
def request (cfg : Cfg) (mutate : St → St) (read : St → α) : ReqM α := fun n st =>
  let st1 := cfg.ext n st
  if cfg.fail n then .error (n + 1, st1)
  else .ok (read (mutate st1), n + 1, mutate st1)

/-- The benign environment: no request fails, no interleaved writers
("sequentially, with no interleaved writers"). -/
def pureCfg (uid : Nat) : Cfg :=
  { userId := uid, fail := fun _ => false, ext := fun _ st => st }

/-- The journal-page window filter of `_ensure_page` in
src/services/events_service.py lines 15-18:
`owner = uid && date >= "D 00:00:00Z" && date < "D+1 00:00:00Z"`. -/
def pageInWindow (uid d : Nat) (p : Page) : Bool :=
  decide (p.owner = uid) && decide (d * 86400 ≤ p.date) && decide (p.date < (d + 1) * 86400)

/-- The journal-page filter of the second `_ensure_page` copy,
src/pb_tkinter_todo.py lines 260-262: `owner = uid && date = "D"`.  The bare
date literal denotes midnight UTC of day `d`, so only a page stored exactly
at `00:00:00Z` matches. -/
def pageMatchExact (uid d : Nat) (p : Page) : Bool :=
  decide (p.owner = uid) && decide (p.date = d * 86400)

/-- First match (`perPage: 1`) of the page query. -/
def findPage (uid d : Nat) (st : St) : Option Page :=
  (st.pages.filter (pageInWindow uid d)).head?

/-- Server effect of the page create (`json={"date": start, "owner": uid}`,
`start = "D 00:00:00Z"`). -/
def createPage (uid d : Nat) (st : St) : St :=
  { st with pages := st.pages ++ [{ id := st.nextId, owner := uid, date := d * 86400 }],
            nextId := st.nextId + 1 }

/-- The page-create POST; its response is the created record. -/
def postPage (cfg : Cfg) (d : Nat) : ReqM Page := fun n st =>
  let st1 := cfg.ext n st
  if cfg.fail n then .error (n + 1, st1)
  else .ok ({ id := st1.nextId, owner := cfg.userId, date := d * 86400 },
            n + 1, createPage cfg.userId d st1)

/-- Embedding of `DailyOps._ensure_page` (src/services/events_service.py lines 14-35):
query the day window; if found return the page; otherwise POST a create,
and on any failure of the create re-query and return the now-existing page,
re-raising only when the re-query also finds nothing. -/
def ensure_page (cfg : Cfg) (d : Nat) : ReqM Page := fun n st =>
  match request cfg (fun s => s) (findPage cfg.userId d) n st with
  | .error e => .error e
  | .ok (some p, n1, st1) => .ok (p, n1, st1)
  | .ok (none, n1, st1) =>
    match postPage cfg d n1 st1 with
    | .ok (p, n2, st2) => .ok (p, n2, st2)
    | .error (n2, st2) =>
      match request cfg (fun s => s) (findPage cfg.userId d) n2 st2 with
      | .error e => .error e
      | .ok (some p, n3, st3) => .ok (p, n3, st3)
      | .ok (none, n3, st3) => .error (n3, st3)

/-- Phase-2 fetch filter (events_service.py line 47):
`owner = uid && status = "open" && journal_date = "yesterday" && kind = "todo"`. -/
def migrFilter (uid y : Nat) (t : TaskRec) : Bool :=
  decide (t.owner = uid) && decide (t.status = Status.opened)
    && decide (t.journal_date = some y) && decide (t.kind = Kind.todo)

/-- Phase-3 fetch filter (events_service.py line 57):
`owner = uid && kind = "routine" && recurrence != ""`. -/
def routineFilter (uid : Nat) (t : TaskRec) : Bool :=
  decide (t.owner = uid) && decide (t.kind = Kind.routine) && decide (t.recurrence ≠ [])

/-- Phase-3 duplicate-check filter (events_service.py line 69):
`owner = uid && parent_task = rt.id && journal_date = "today"`. -/
def dupFilter (uid rtId d : Nat) (t : TaskRec) : Bool :=
  decide (t.owner = uid) && decide (t.parent_task = some rtId) && decide (t.journal_date = some d)

/-- Phase-4 window: `start_at >= "D 00:00:00Z" && start_at < "D 23:59:59Z"`
(note the upper bound is 23:59:59, i.e. second 86399 of the day); a task
with no `start_at` never satisfies a date comparison. -/
def eventWindow (d : Nat) (t : TaskRec) : Bool :=
  match t.start_at with
  | none => false
  | some ts => decide (d * 86400 ≤ ts) && decide (ts < d * 86400 + 86399)

/-- Phase-4 fetch filter (events_service.py lines 89-90). -/
def eventFilter (uid d : Nat) (t : TaskRec) : Bool :=
  decide (t.owner = uid) && decide (t.kind = Kind.event) && eventWindow d t

/-- Server effect of `PATCH /api/collections/tasks/records/{tid}`: apply `g`
to the record with id `tid`. -/
def patchList (tid : Nat) (g : TaskRec → TaskRec) (l : List TaskRec) : List TaskRec :=
  l.map fun u => if u.id = tid then g u else u

def patchState (tid : Nat) (g : TaskRec → TaskRec) (st : St) : St :=
  { st with tasks := patchList tid g st.tasks }

/-- Python `migrated = (t.get("migrated_count") or 0) + 1` (events_service.py
line 51): a missing/null/zero stored value counts as 0. -/
def migVal (t : TaskRec) : Nat := t.migrated_count.getD 0 + 1

/-- The phase-2 patch body, with `migrated` computed from the fetched
snapshot `t`: `{"journal_date": today_iso, "migrated_count": migrated}`. -/
def migPatch (d : Nat) (t : TaskRec) : TaskRec → TaskRec := fun u =>
  { u with journal_date := some d, migrated_count := some (migVal t) }

/-- The phase-4 patch body: `{"journal_date": today_iso}`. -/
def evPatch (d : Nat) : TaskRec → TaskRec := fun u => { u with journal_date := some d }

/-- Phase-2 loop (events_service.py lines 49-52): one PATCH per fetched task. -/
def migrateLoop (cfg : Cfg) (d : Nat) : List TaskRec → ReqM Unit
  | [] => reqPure ()
  | t :: ts => fun n st =>
    match request cfg (patchState t.id (migPatch d t)) (fun _ => ()) n st with
    | .error e => .error e
    | .ok (_, n1, st1) => migrateLoop cfg d ts n1 st1

/-- The routine-instance create payload (events_service.py lines 74-85). -/
def childPayload (uid d : Nat) (rt : TaskRec) (newId : Nat) : TaskRec :=
  { id := newId, owner := uid, title := rt.title, notes := rt.notes,
    status := .opened, kind := .todo, priority := rt.priority, position := 1,
    context := rt.context, journal_date := some d, due_date := none,
    start_at := none, end_at := none, recurrence := [], migrated_count := none,
    parent_task := some rt.id }

def createChild (uid d : Nat) (rt : TaskRec) (st : St) : St :=
  { st with tasks := st.tasks ++ [childPayload uid d rt st.nextId], nextId := st.nextId + 1 }

/-- Phase-3 loop (events_service.py lines 58-86): skip unless the recurrence
guard holds (no request issued for a skip); then a duplicate-check GET
(`perPage: 1`); create the child only when it finds nothing. -/
def routineLoop (cfg : Cfg) (d : Nat) : List TaskRec → ReqM Unit
  | [] => reqPure ()
  | rt :: rts => fun n st =>
    if rrule_matches rt.recurrence d then
      match request cfg (fun s => s)
          (fun s => (s.tasks.filter (dupFilter cfg.userId rt.id d)).head?) n st with
      | .error e => .error e
      | .ok (some _, n1, st1) => routineLoop cfg d rts n1 st1
      | .ok (none, n1, st1) =>
        match request cfg (createChild cfg.userId d rt) (fun _ => ()) n1 st1 with
        | .error e => .error e
        | .ok (_, n2, st2) => routineLoop cfg d rts n2 st2
    else
      routineLoop cfg d rts n st

/-- Phase-4 loop (events_service.py lines 93-95): PATCH only the fetched
events whose `journal_date` differs from today (no request at all for the
others). -/
def eventLoop (cfg : Cfg) (d : Nat) : List TaskRec → ReqM Unit
  | [] => reqPure ()
  | ev :: evs => fun n st =>
    if ev.journal_date = some d then eventLoop cfg d evs n st
    else
      match request cfg (patchState ev.id (evPatch d)) (fun _ => ()) n st with
      | .error e => .error e
      | .ok (_, n1, st1) => eventLoop cfg d evs n1 st1

/-- Phase 2 as a unit: fetch then migrate. -/
def phase2 (cfg : Cfg) (today : Nat) : ReqM Unit :=
  reqBind (request cfg (fun s => s) (fun s => s.tasks.filter (migrFilter cfg.userId (today - 1))))
    (fun ts => migrateLoop cfg today ts)

/-- Phase 3 as a unit: fetch routines then materialize. -/
def phase3 (cfg : Cfg) (today : Nat) : ReqM Unit :=
  reqBind (request cfg (fun s => s) (fun s => s.tasks.filter (routineFilter cfg.userId)))
    (fun rts => routineLoop cfg today rts)

/-- Phase 4 as a unit: fetch today's events then reconcile. -/
def phase4 (cfg : Cfg) (today : Nat) : ReqM Unit :=
  reqBind (request cfg (fun s => s) (fun s => s.tasks.filter (eventFilter cfg.userId today)))
    (fun evs => eventLoop cfg today evs)

/-- Embedding of `DailyOps.prepare_today` (src/services/events_service.py lines 37-95),
written out as the source's straight-line sequence: ensure today's page,
fetch and migrate yesterday's open todos, fetch and materialize routines,
fetch and reconcile today's events. -/
def prepare_today (cfg : Cfg) (today : Nat) : ReqM Unit := fun n st =>
  match ensure_page cfg today n st with
  | .error e => .error e
  | .ok (_, n1, st1) =>
    match request cfg (fun s => s)
        (fun s => s.tasks.filter (migrFilter cfg.userId (today - 1))) n1 st1 with
    | .error e => .error e
    | .ok (ts, n2, st2) =>
      match migrateLoop cfg today ts n2 st2 with
      | .error e => .error e
      | .ok (_, n3, st3) =>
        match request cfg (fun s => s)
            (fun s => s.tasks.filter (routineFilter cfg.userId)) n3 st3 with
        | .error e => .error e
        | .ok (rts, n4, st4) =>
          match routineLoop cfg today rts n4 st4 with
          | .error e => .error e
          | .ok (_, n5, st5) =>
            match request cfg (fun s => s)
                (fun s => s.tasks.filter (eventFilter cfg.userId today)) n5 st5 with
            | .error e => .error e
            | .ok (evs, n6, st6) => eventLoop cfg today evs n6 st6

/-- Store well-formedness: pairwise-distinct task ids, all below the next
fresh id. -/
def wfTasks : List TaskRec → Nat → Bool
  | [], _ => true
  | t :: ts, bound =>
    decide (t.id < bound) && ts.all (fun u => decide (u.id ≠ t.id)) && wfTasks ts bound

def wfSt (st : St) : Bool := wfTasks st.tasks st.nextId

/-- The filter string `PocketBaseClient.list_tasks` builds for
`status = "all"` (src/storage/pocketbase.py lines 54-58):
`owner = uid && context = ctx && status = "open" || status = "done" ||
status = "cancelled"`; `&&` binds tighter than `||`, so the context and
owner conjuncts scope only the `open` disjunct. -/
def clientFilterAll (uid ctx : Nat) (t : TaskRec) : Bool :=
  (decide (t.owner = uid) && decide (t.context = ctx) && decide (t.status = Status.opened))
    || decide (t.status = Status.done) || decide (t.status = Status.cancelled)

/-- The `tasks` collection list rule installed by pb_bootstrap.py:
`owner = @request.auth.id`, conjoined server-side with any client filter. -/
def tasksListRule (uid : Nat) (t : TaskRec) : Bool := decide (t.owner = uid)

/-- Records returned by the call `list_tasks(ctx, status="all")`: the server applies
the list rule and the client's filter. -/
def list_tasks_all (uid ctx : Nat) (tasks : List TaskRec) : List TaskRec :=
  tasks.filter fun t => tasksListRule uid t && clientFilterAll uid ctx t

/-- The accumulated server effect of a sequence of per-record PATCH/skip
steps: `sel t = none` means the loop skipped record `t`, `sel t = some g`
means it issued a PATCH applying `g` to the record with `t`'s id. -/
def applySel (sel : TaskRec → Option (TaskRec → TaskRec)) (ts l : List TaskRec) : List TaskRec :=
  ts.foldl (fun acc t =>
    match sel t with
    | none => acc
    | some g => patchList t.id g acc) l

/-- Pointwise description of `applySel` over a snapshot with distinct ids. -/
def selF (sel : TaskRec → Option (TaskRec → TaskRec)) (ts : List TaskRec) (u : TaskRec) : TaskRec :=
  match ts.find? (fun t => t.id == u.id) with
  | some t => (match sel t with | some g => g u | none => u)
  | none => u

/-- Selector of the migration loop: every fetched task is patched, the patch
value computed from the fetched snapshot. -/
def migSel (d : Nat) (t : TaskRec) : Option (TaskRec → TaskRec) := some (migPatch d t)

/-- Selector of the event loop: fetched events already on today's page are
skipped without a request, the rest are patched. -/
def evSel (d : Nat) (ev : TaskRec) : Option (TaskRec → TaskRec) :=
  if ev.journal_date = some d then none else some (evPatch d)

/-- Pointwise effect of phase 2 on the store. -/
def migStep (uid d : Nat) (u : TaskRec) : TaskRec :=
  if migrFilter uid (d - 1) u then migPatch d u u else u

/-- Pointwise effect of phase 4 on the store. -/
def evStep (uid d : Nat) (u : TaskRec) : TaskRec :=
  if eventFilter uid d u then (if u.journal_date = some d then u else evPatch d u) else u

/-- The tasks whose `parent_task` points at routine id `rid`. -/
def childrenOf (rid : Nat) (l : List TaskRec) : List TaskRec :=
  l.filter (fun t => t.parent_task == some rid)

/-- A store map is `d`-gentle when it never touches `parent_task` or
`owner`, and only ever rewrites `journal_date` to day `d`. -/
def JdGentle (d : Nat) (F : TaskRec → TaskRec) : Prop :=
  ∀ u, (F u).parent_task = u.parent_task ∧ (F u).owner = u.owner ∧
    (F u = u ∨ (F u).journal_date = some d)

/-- Python `",".join(tokens)`, the inverse image used to state the `BYDAY` claim. -/
def joinComma : List (List Char) → List Char
  | [] => []
  | [b] => b
  | b :: bs => b ++ ',' :: joinComma bs

/-- A default task record; witnesses adjust individual fields. -/
def baseTask : TaskRec :=
  { id := 0, owner := 0, title := [], notes := [], status := .opened, kind := .todo,
    priority := 0, position := 1, context := 0, journal_date := none, due_date := none,
    start_at := none, end_at := none, recurrence := [], migrated_count := none,
    parent_task := none }

/-- The single open todo dated day 0 used by migration witnesses. -/
def wYesterdayTask : TaskRec := { baseTask with journal_date := some 0 }

/-- The one-task store used by migration witnesses. -/
def wMigSt : St := { tasks := [wYesterdayTask], pages := [], nextId := 1 }

/-- Event already on today's page (day 0). -/
def wEvOn : TaskRec :=
  { baseTask with
    id := 1,
    kind := Kind.event,
    start_at := some 10,
    journal_date := some 0 }

/-- Event in today's window but not yet on today's page. -/
def wEvOff : TaskRec :=
  { baseTask with
    id := 2,
    kind := Kind.event,
    start_at := some 20 }

/-- The weekly routine used by the C1 witness. -/
def wRoutine : TaskRec :=
  { baseTask with
    kind := Kind.routine,
    recurrence := toL "FREQ=WEEKLY" }

/-- The environment for the C5 witness: the create POST (request 1) fails,
and a concurrent writer inserts the page just before the re-query. -/
def c5Cfg : Cfg :=
  { userId := 0,
    fail := fun k => k == 1,
    ext := fun k s =>
      if k == 2 then { tasks := [], pages := [{ id := 9, owner := 0, date := 0 }], nextId := 5 }
      else s }

theorem pureCfg_userId (uid : Nat) : (pureCfg uid).userId = uid := rfl

theorem request_pure (uid : Nat) (m : St → St) (r : St → α) (n : Nat) (st : St) :
    request (pureCfg uid) m r n st = .ok (r (m st), n + 1, m st) := rfl

theorem postPage_pure (uid : Nat) (d : Nat) (n : Nat) (st : St) :
    postPage (pureCfg uid) d n st =
      .ok ({ id := st.nextId, owner := uid, date := d * 86400 }, n + 1, createPage uid d st) := rfl

/-- Under the benign environment `_ensure_page` returns the found page, or
creates one; either way the `tasks` collection is untouched. -/
theorem ensure_page_pure (uid d n : Nat) (st : St) :
    ensure_page (pureCfg uid) d n st =
      match findPage uid d st with
      | some p => .ok (p, n + 1, st)
      | none => .ok ({ id := st.nextId, owner := uid, date := d * 86400 }, n + 2, createPage uid d st) := by
  unfold ensure_page
  rw [request_pure, pureCfg_userId]
  cases h : findPage uid d st with
  | some p => rfl
  | none => rfl

/-- Store well-formedness is monotone in the id bound. -/
theorem wfTasks_mono {l : List TaskRec} {b b' : Nat} (h : wfTasks l b = true) (hb : b ≤ b') :
    wfTasks l b' = true := by
  induction l with
  | nil => rfl
  | cons t ts ih =>
    simp only [wfTasks, Bool.and_eq_true, decide_eq_true_eq] at h ⊢
    exact ⟨⟨Nat.lt_of_lt_of_le h.1.1 hb, h.1.2⟩, ih h.2⟩

/-- In a well-formed store the id determines the record. -/
theorem wf_id_inj {l : List TaskRec} {b : Nat} (h : wfTasks l b = true) :
    ∀ a ∈ l, ∀ c ∈ l, a.id = c.id → a = c := by
  induction l with
  | nil => simp
  | cons t ts ih =>
    simp only [wfTasks, Bool.and_eq_true, decide_eq_true_eq, List.all_eq_true] at h
    obtain ⟨⟨_, hall⟩, hts⟩ := h
    intro a ha c hc hid
    rcases List.mem_cons.mp ha with ha1 | ha2 <;> rcases List.mem_cons.mp hc with hc1 | hc2
    · rw [ha1, hc1]
    · subst ha1; exact absurd hid.symm (by simpa using hall c hc2)
    · subst hc1; exact absurd hid (by simpa using hall a ha2)
    · exact ih hts a ha2 c hc2 hid

theorem wf_pairwise {l : List TaskRec} {b : Nat} (h : wfTasks l b = true) :
    l.Pairwise (fun a c => a.id ≠ c.id) := by
  induction l with
  | nil => exact List.Pairwise.nil
  | cons t ts ih =>
    simp only [wfTasks, Bool.and_eq_true, decide_eq_true_eq, List.all_eq_true] at h
    obtain ⟨⟨_, hall⟩, hts⟩ := h
    exact List.Pairwise.cons (fun u hu => Ne.symm (by simpa using hall u hu)) (ih hts)

theorem wf_bound {l : List TaskRec} {b : Nat} (h : wfTasks l b = true) :
    ∀ a ∈ l, a.id < b := by
  induction l with
  | nil => simp
  | cons t ts ih =>
    simp only [wfTasks, Bool.and_eq_true, decide_eq_true_eq, List.all_eq_true] at h
    intro a ha
    rcases List.mem_cons.mp ha with rfl | ha
    · exact h.1.1
    · exact ih h.2 a ha

/-- Searching a filtered well-formed task list by id finds exactly the
record itself, when it passes the filter. -/
theorem find?_filter_id (l : List TaskRec) (p : TaskRec → Bool) (u : TaskRec)
    (hinj : ∀ a ∈ l, ∀ c ∈ l, a.id = c.id → a = c) (hu : u ∈ l) :
    (l.filter p).find? (fun t => t.id == u.id) = if p u then some u else none := by
  by_cases hp : p u = true
  · rw [if_pos hp]
    cases hfind : (l.filter p).find? (fun t => t.id == u.id) with
    | none =>
      exfalso
      rw [List.find?_eq_none] at hfind
      exact hfind u (List.mem_filter.mpr ⟨hu, hp⟩) (by simp)
    | some t =>
      have h1 := List.find?_some hfind
      have h2 := (List.mem_filter.mp (List.mem_of_find?_eq_some hfind)).1
      rw [hinj t h2 u hu (by simpa using h1)]
  · rw [if_neg hp]
    rw [List.find?_eq_none]
    intro t ht hbeq
    have h2 := List.mem_filter.mp ht
    have : t = u := hinj t h2.1 u hu (by simpa using hbeq)
    rw [this] at h2
    exact hp h2.2

theorem applySel_eq_map (sel : TaskRec → Option (TaskRec → TaskRec))
    (hid : ∀ t g, sel t = some g → ∀ u, (g u).id = u.id)
    (ts : List TaskRec) (hts : ts.Pairwise (fun a c => a.id ≠ c.id)) (l : List TaskRec) :
    applySel sel ts l = l.map (selF sel ts) := by
  induction ts generalizing l with
  | nil =>
    have h1 : List.map (selF sel []) l = l := by
      induction l with
      | nil => rfl
      | cons a l ihl => rw [List.map_cons, ihl]; simp [selF]
    simp [applySel, h1]
  | cons t ts ih =>
    obtain ⟨hhead, hts'⟩ := List.pairwise_cons.mp hts
    cases hsel : sel t with
    | none =>
      have hstep : applySel sel (t :: ts) l = applySel sel ts l := by
        simp [applySel, hsel]
      rw [hstep, ih hts' l]
      apply List.map_congr_left
      intro u _
      simp only [selF]
      by_cases hb : t.id = u.id
      · have hfind : (t :: ts).find? (fun s => s.id == u.id) = some t :=
          List.find?_cons_of_pos _ (by simpa using hb)
        have hnone : ts.find? (fun s => s.id == u.id) = none := by
          rw [List.find?_eq_none]
          intro s hs hbeq
          exact hhead s hs (hb.trans (Eq.symm (by simpa using hbeq)))
        rw [hfind, hnone]
        simp [hsel]
      · have hfind : (t :: ts).find? (fun s => s.id == u.id) = ts.find? (fun s => s.id == u.id) :=
          List.find?_cons_of_neg _ (by simpa using hb)
        rw [hfind]
    | some g =>
      have hstep : applySel sel (t :: ts) l = applySel sel ts (patchList t.id g l) := by
        simp [applySel, hsel]
      rw [hstep, ih hts', patchList, List.map_map]
      apply List.map_congr_left
      intro u _
      simp only [Function.comp, selF]
      by_cases hb : u.id = t.id
      · rw [if_pos hb]
        have hgid : (g u).id = u.id := hid t g hsel u
        have hfind : (t :: ts).find? (fun s => s.id == u.id) = some t :=
          List.find?_cons_of_pos _ (by simpa using hb.symm)
        have hnone : ts.find? (fun s => s.id == (g u).id) = none := by
          rw [List.find?_eq_none]
          intro s hs hbeq
          have hs2 : s.id = u.id := by rw [← hgid]; simpa using hbeq
          exact hhead s hs ((hs2.trans hb).symm)
        rw [hfind, hnone]
        simp [hsel]
      · rw [if_neg hb]
        have hfind : (t :: ts).find? (fun s => s.id == u.id) = ts.find? (fun s => s.id == u.id) :=
          List.find?_cons_of_neg _ (by simpa using fun h => hb h.symm)
        rw [hfind]

theorem migrateLoop_pure (uid d : Nat) (ts : List TaskRec) (n : Nat) (st : St) :
    migrateLoop (pureCfg uid) d ts n st =
      .ok ((), n + ts.length, { st with tasks := applySel (migSel d) ts st.tasks }) := by
  induction ts generalizing n st with
  | nil => simp [migrateLoop, reqPure, applySel]
  | cons t ts ih =>
    have harith : n + 1 + ts.length = n + (ts.length + 1) := by omega
    simp only [migrateLoop, request_pure]
    rw [ih, harith]
    rfl

theorem eventLoop_pure (uid d : Nat) (evs : List TaskRec) (n : Nat) (st : St) :
    eventLoop (pureCfg uid) d evs n st =
      .ok ((), n + (evs.filter (fun ev => decide (¬ ev.journal_date = some d))).length,
           { st with tasks := applySel (evSel d) evs st.tasks }) := by
  induction evs generalizing n st with
  | nil => simp [eventLoop, reqPure, applySel]
  | cons ev evs ih =>
    by_cases h : ev.journal_date = some d
    · simp only [eventLoop]
      rw [if_pos h, ih]
      have hcount : List.filter (fun ev => decide (¬ ev.journal_date = some d)) (ev :: evs)
          = List.filter (fun ev => decide (¬ ev.journal_date = some d)) evs := by
        simp [List.filter_cons, h]
      have hstate : applySel (evSel d) (ev :: evs) st.tasks = applySel (evSel d) evs st.tasks := by
        simp [applySel, evSel, h]
      rw [hcount, hstate]
    · simp only [eventLoop]
      rw [if_neg h, request_pure]
      show eventLoop (pureCfg uid) d evs (n + 1) (patchState ev.id (evPatch d) st) = _
      rw [ih]
      have hcount : List.filter (fun ev => decide (¬ ev.journal_date = some d)) (ev :: evs)
          = ev :: List.filter (fun ev => decide (¬ ev.journal_date = some d)) evs := by
        simp [List.filter_cons, h]
      have harith : n + 1 + (List.filter (fun ev => decide (¬ ev.journal_date = some d)) evs).length
          = n + (ev :: List.filter (fun ev => decide (¬ ev.journal_date = some d)) evs).length := by
        simp; omega
      have hstate : applySel (evSel d) (ev :: evs) st.tasks
          = applySel (evSel d) evs (patchList ev.id (evPatch d) st.tasks) := by
        simp [applySel, evSel, h]
      rw [hcount, harith, hstate]
      rfl

theorem phase2_pure (uid d n : Nat) (st : St) (hwf : wfSt st = true) :
    phase2 (pureCfg uid) d n st =
      .ok ((), n + 1 + (st.tasks.filter (migrFilter uid (d - 1))).length,
           { st with tasks := st.tasks.map (migStep uid d) }) := by
  unfold phase2
  rw [reqBind, request_pure, pureCfg_userId]
  show migrateLoop (pureCfg uid) d (st.tasks.filter (migrFilter uid (d - 1))) (n + 1) st = _
  rw [migrateLoop_pure]
  have hid : ∀ t g, migSel d t = some g → ∀ u, (g u).id = u.id := by
    intro t g hg u
    simp only [migSel, Option.some.injEq] at hg
    rw [← hg]
    rfl
  rw [applySel_eq_map (migSel d) hid _ ((wf_pairwise hwf).filter _)]
  have hmap : st.tasks.map (selF (migSel d) (st.tasks.filter (migrFilter uid (d - 1))))
      = st.tasks.map (migStep uid d) := by
    apply List.map_congr_left
    intro u hu
    simp only [selF, migStep]
    rw [find?_filter_id st.tasks _ u (wf_id_inj hwf) hu]
    by_cases hp : migrFilter uid (d - 1) u = true
    · rw [if_pos hp, if_pos hp]
      rfl
    · rw [if_neg hp, if_neg hp]
  rw [hmap]

theorem phase4_pure (uid d n : Nat) (st : St) (hwf : wfSt st = true) :
    phase4 (pureCfg uid) d n st =
      .ok ((), n + 1 + ((st.tasks.filter (eventFilter uid d)).filter
              (fun ev => decide (¬ ev.journal_date = some d))).length,
           { st with tasks := st.tasks.map (evStep uid d) }) := by
  unfold phase4
  rw [reqBind, request_pure, pureCfg_userId]
  show eventLoop (pureCfg uid) d (st.tasks.filter (eventFilter uid d)) (n + 1) st = _
  rw [eventLoop_pure]
  have hid : ∀ t g, evSel d t = some g → ∀ u, (g u).id = u.id := by
    intro t g hg u
    simp only [evSel] at hg
    by_cases h : t.journal_date = some d
    · rw [if_pos h] at hg
      exact absurd hg (by simp)
    · rw [if_neg h] at hg
      simp only [Option.some.injEq] at hg
      rw [← hg]
      rfl
  rw [applySel_eq_map (evSel d) hid _ ((wf_pairwise hwf).filter _)]
  have hmap : st.tasks.map (selF (evSel d) (st.tasks.filter (eventFilter uid d)))
      = st.tasks.map (evStep uid d) := by
    apply List.map_congr_left
    intro u hu
    simp only [selF, evStep]
    rw [find?_filter_id st.tasks _ u (wf_id_inj hwf) hu]
    by_cases hp : eventFilter uid d u = true
    · rw [if_pos hp, if_pos hp]
      simp only [evSel]
      by_cases h : u.journal_date = some d
      · rw [if_pos h, if_pos h]
      · rw [if_neg h, if_neg h]
    · rw [if_neg hp, if_neg hp]
  rw [hmap]

theorem childrenOf_append (rid : Nat) (l m : List TaskRec) :
    childrenOf rid (l ++ m) = childrenOf rid l ++ childrenOf rid m :=
  List.filter_append l m

theorem childrenOf_map (rid : Nat) (l : List TaskRec) (F : TaskRec → TaskRec)
    (hF : ∀ u, (F u).parent_task = u.parent_task) :
    childrenOf rid (l.map F) = (childrenOf rid l).map F := by
  unfold childrenOf
  rw [List.filter_map F l]
  congr 1
  apply List.filter_congr
  intro u _
  simp [Function.comp, hF u]

theorem migStep_gentle (uid d : Nat) : JdGentle d (migStep uid d) := by
  intro u
  unfold migStep
  by_cases h : migrFilter uid (d - 1) u = true
  · rw [if_pos h]
    exact ⟨rfl, rfl, Or.inr rfl⟩
  · rw [if_neg h]
    exact ⟨rfl, rfl, Or.inl rfl⟩

theorem evStep_gentle (uid d : Nat) : JdGentle d (evStep uid d) := by
  intro u
  unfold evStep
  by_cases h : eventFilter uid d u = true
  · rw [if_pos h]
    by_cases h2 : u.journal_date = some d
    · rw [if_pos h2]
      exact ⟨rfl, rfl, Or.inl rfl⟩
    · rw [if_neg h2]
      exact ⟨rfl, rfl, Or.inr rfl⟩
  · rw [if_neg h]
    exact ⟨rfl, rfl, Or.inl rfl⟩

theorem migrFilter_kind {uid y : Nat} {u : TaskRec} (h : migrFilter uid y u = true) :
    u.kind = Kind.todo := by
  simp only [migrFilter, Bool.and_eq_true, decide_eq_true_eq] at h
  tauto

theorem eventFilter_kind {uid d : Nat} {u : TaskRec} (h : eventFilter uid d u = true) :
    u.kind = Kind.event := by
  simp only [eventFilter, Bool.and_eq_true, decide_eq_true_eq] at h
  tauto

theorem dupFilter_parent {uid rid d : Nat} {u : TaskRec} (h : dupFilter uid rid d u = true) :
    u.parent_task = some rid := by
  simp only [dupFilter, Bool.and_eq_true, decide_eq_true_eq] at h
  tauto

theorem migStep_of_kind {uid d : Nat} {u : TaskRec} (h : ¬ u.kind = Kind.todo) :
    migStep uid d u = u := by
  unfold migStep
  rw [if_neg]
  intro hf
  exact h (migrFilter_kind hf)

theorem evStep_of_kind {uid d : Nat} {u : TaskRec} (h : ¬ u.kind = Kind.event) :
    evStep uid d u = u := by
  unfold evStep
  rw [if_neg]
  intro hf
  exact h (eventFilter_kind hf)

theorem wfTasks_map_id {l : List TaskRec} {b : Nat} (F : TaskRec → TaskRec)
    (hF : ∀ u, (F u).id = u.id) (h : wfTasks l b = true) : wfTasks (l.map F) b = true := by
  induction l with
  | nil => rfl
  | cons t ts ih =>
    simp only [wfTasks, Bool.and_eq_true, decide_eq_true_eq, List.all_eq_true, List.map_cons] at h ⊢
    obtain ⟨⟨hlt, hall⟩, hts⟩ := h
    refine ⟨⟨?_, ?_⟩, ih hts⟩
    · rw [hF t]
      exact hlt
    · intro u hu
      obtain ⟨v, hv, rfl⟩ := List.mem_map.mp hu
      simpa [hF v, hF t] using hall v hv

theorem wfTasks_append_one {l : List TaskRec} {b : Nat} (c : TaskRec)
    (hc : c.id = b) (h : wfTasks l b = true) : wfTasks (l ++ [c]) (b + 1) = true := by
  induction l with
  | nil => simp [wfTasks, hc]
  | cons t ts ih =>
    simp only [wfTasks, Bool.and_eq_true, decide_eq_true_eq, List.all_eq_true,
      List.cons_append] at h ⊢
    obtain ⟨⟨hlt, hall⟩, hts⟩ := h
    refine ⟨⟨Nat.lt_succ_of_lt hlt, ?_⟩, ih hts⟩
    intro u hu
    rcases List.mem_append.mp hu with hu | hu
    · exact hall u hu
    · have : u = c := by simpa using hu
      subst this
      simpa [hc] using (Nat.ne_of_gt hlt)

/-- The overall server effect of the phase-3 loop under the benign
environment: it only appends, each appended record being a routine instance
of one of the fetched routines; store well-formedness is preserved. -/
theorem routineLoop_pure (uid d : Nat) (rts : List TaskRec) (n : Nat) (st : St) :
    ∃ n' extra,
      routineLoop (pureCfg uid) d rts n st =
        .ok ((), n', { st with tasks := st.tasks ++ extra, nextId := st.nextId + extra.length }) ∧
      (∀ c ∈ extra, ∃ rt, rt ∈ rts ∧ c.parent_task = some rt.id ∧ c.owner = uid ∧
        c.journal_date = some d ∧ c.kind = Kind.todo) ∧
      (wfSt st = true →
        wfSt { st with tasks := st.tasks ++ extra, nextId := st.nextId + extra.length } = true) := by
  induction rts generalizing n st with
  | nil =>
    refine ⟨n, [], by simp [routineLoop, reqPure], by simp, ?_⟩
    intro h
    simpa [wfSt] using h
  | cons rt rts ih =>
    by_cases hm : rrule_matches rt.recurrence d
    · simp only [routineLoop]
      rw [if_pos hm, request_pure, pureCfg_userId]
      cases hdup : (st.tasks.filter (dupFilter uid rt.id d)).head? with
      | some t =>
        obtain ⟨n1, extra, hrun, hprop, hwf⟩ := ih (n + 1) st
        refine ⟨n1, extra, by exact hrun, ?_, hwf⟩
        intro c hc
        obtain ⟨rt1, h1, h2⟩ := hprop c hc
        exact ⟨rt1, List.mem_cons_of_mem _ h1, h2⟩
      | none =>
        obtain ⟨n1, extra, hrun, hprop, hwf⟩ := ih (n + 1 + 1) (createChild uid d rt st)
        have hrec : ({ tasks := (createChild uid d rt st).tasks ++ extra,
                       pages := (createChild uid d rt st).pages,
                       nextId := (createChild uid d rt st).nextId + extra.length } : St)
            = { tasks := st.tasks ++ childPayload uid d rt st.nextId :: extra,
                pages := st.pages,
                nextId := st.nextId + (childPayload uid d rt st.nextId :: extra).length } := by
          simp only [createChild, List.append_assoc, List.singleton_append, List.length_cons]
          congr 1
          omega
        refine ⟨n1, childPayload uid d rt st.nextId :: extra, ?_, ?_, ?_⟩
        · show routineLoop (pureCfg uid) d rts (n + 1 + 1) (createChild uid d rt st) = _
          rw [hrun, hrec]
        · intro c hc
          rcases List.mem_cons.mp hc with hc1 | hc2
          · subst hc1
            exact ⟨rt, List.mem_cons_self _ _, rfl, rfl, rfl, rfl⟩
          · obtain ⟨rt1, h1, h2⟩ := hprop c hc2
            exact ⟨rt1, List.mem_cons_of_mem _ h1, h2⟩
        · intro hwfst
          have hcreate : wfSt (createChild uid d rt st) = true := by
            unfold wfSt at hwfst ⊢
            simp only [createChild]
            exact wfTasks_append_one _ rfl hwfst
          have hfin := hwf hcreate
          rw [hrec] at hfin
          exact hfin
    · simp only [routineLoop]
      rw [if_neg hm]
      obtain ⟨n1, extra, hrun, hprop, hwf⟩ := ih n st
      refine ⟨n1, extra, hrun, ?_, hwf⟩
      intro c hc
      obtain ⟨rt1, h1, h2⟩ := hprop c hc
      exact ⟨rt1, List.mem_cons_of_mem _ h1, h2⟩

theorem routineLoop_append_pure (uid d : Nat) (xs ys : List TaskRec) (n : Nat) (st : St) :
    routineLoop (pureCfg uid) d (xs ++ ys) n st =
      (match routineLoop (pureCfg uid) d xs n st with
       | .error e => .error e
       | .ok (_, n1, st1) => routineLoop (pureCfg uid) d ys n1 st1) := by
  induction xs generalizing n st with
  | nil => simp [routineLoop, reqPure]
  | cons x xs ih =>
    by_cases hm : rrule_matches x.recurrence d
    · simp only [List.cons_append, routineLoop, if_pos hm, request_pure, pureCfg_userId]
      cases hdup : (st.tasks.filter (dupFilter uid x.id d)).head? with
      | some t => exact ih (n + 1) st
      | none => exact ih (n + 1 + 1) (createChild uid d x st)
    · simp only [List.cons_append, routineLoop, if_neg hm]
      exact ih n st

theorem filter_dup_nil {uid rid d : Nat} {l : List TaskRec}
    (h : childrenOf rid l = []) : l.filter (dupFilter uid rid d) = [] := by
  rw [List.filter_eq_nil_iff]
  intro t ht hdup
  have hmem : t ∈ childrenOf rid l :=
    List.mem_filter.mpr ⟨ht, by simpa using dupFilter_parent hdup⟩
  rw [h] at hmem
  exact absurd hmem (List.not_mem_nil t)

theorem head?_dup_some {uid rid d : Nat} {l : List TaskRec} {c : TaskRec}
    (hc : c ∈ l) (hdup : dupFilter uid rid d c = true) :
    ∃ t, (l.filter (dupFilter uid rid d)).head? = some t := by
  have hmem : c ∈ l.filter (dupFilter uid rid d) := List.mem_filter.mpr ⟨hc, hdup⟩
  cases hl : l.filter (dupFilter uid rid d) with
  | nil =>
    rw [hl] at hmem
    exact absurd hmem (List.not_mem_nil c)
  | cons a as => exact ⟨a, rfl⟩

theorem childrenOf_nil_of_prop {rid uid d : Nat} {extra rts : List TaskRec}
    (hprop : ∀ c ∈ extra, ∃ rt, rt ∈ rts ∧ c.parent_task = some rt.id ∧ c.owner = uid ∧
      c.journal_date = some d ∧ c.kind = Kind.todo)
    (hne : ∀ rt ∈ rts, rt.id ≠ rid) : childrenOf rid extra = [] := by
  rw [childrenOf, List.filter_eq_nil_iff]
  intro c hc hbeq
  obtain ⟨rt, hrt, hpar, _⟩ := hprop c hc
  have hp : c.parent_task = some rid := by simpa using hbeq
  rw [hpar] at hp
  exact hne rt hrt (by simpa using hp)

/-- Running phase 3 over `pre ++ R :: post` where no routine in `pre`/`post`
shares `R`'s id and no instance of `R` exists yet: exactly one instance of
`R` is created (the duplicate check finds nothing for `R`, and nothing any
other iteration creates points at `R`). -/
theorem routineLoop_materializes (uid d : Nat) (R : TaskRec) (pre post : List TaskRec)
    (n : Nat) (st : St)
    (hmatch : rrule_matches R.recurrence d = true)
    (hpre : ∀ rt ∈ pre, rt.id ≠ R.id) (hpost : ∀ rt ∈ post, rt.id ≠ R.id)
    (hch : childrenOf R.id st.tasks = []) (hwfst : wfSt st = true) :
    ∃ n' st', routineLoop (pureCfg uid) d (pre ++ R :: post) n st = .ok ((), n', st') ∧
      wfSt st' = true ∧ (∀ u ∈ st.tasks, u ∈ st'.tasks) ∧
      ∃ c, childrenOf R.id st'.tasks = [c] ∧ c.owner = uid ∧ c.journal_date = some d ∧
        c.parent_task = some R.id := by
  obtain ⟨n1, extra1, hrun1, hprop1, hwf1⟩ := routineLoop_pure uid d pre n st
  set st1 : St := { st with tasks := st.tasks ++ extra1, nextId := st.nextId + extra1.length }
    with hst1
  have hch1 : childrenOf R.id st1.tasks = [] := by
    show childrenOf R.id (st.tasks ++ extra1) = []
    rw [childrenOf_append, hch, childrenOf_nil_of_prop hprop1 hpre]
    rfl
  have hwfst1 : wfSt st1 = true := hwf1 hwfst
  have hdup : (st1.tasks.filter (dupFilter uid R.id d)).head? = none := by
    rw [filter_dup_nil hch1]
    rfl
  have hstep : routineLoop (pureCfg uid) d (R :: post) n1 st1
      = routineLoop (pureCfg uid) d post (n1 + 1 + 1) (createChild uid d R st1) := by
    simp only [routineLoop]
    rw [if_pos hmatch, request_pure, pureCfg_userId, hdup]
    rfl
  set st2 : St := createChild uid d R st1 with hst2
  have hwfst2 : wfSt st2 = true := by
    unfold wfSt at hwfst1 ⊢
    rw [hst2]
    simp only [createChild]
    exact wfTasks_append_one _ rfl hwfst1
  obtain ⟨n3, extra3, hrun3, hprop3, hwf3⟩ := routineLoop_pure uid d post (n1 + 1 + 1) st2
  refine ⟨n3, _, ?_, hwf3 hwfst2, ?_, ?_⟩
  · rw [routineLoop_append_pure, hrun1]
    show routineLoop (pureCfg uid) d (R :: post) n1 st1 = _
    rw [hstep, hrun3]
  · intro u hu
    show u ∈ st2.tasks ++ extra3
    refine List.mem_append_left _ ?_
    show u ∈ st1.tasks ++ [childPayload uid d R st1.nextId]
    exact List.mem_append_left _ (List.mem_append_left _ hu)
  · refine ⟨childPayload uid d R st1.nextId, ?_, rfl, rfl, rfl⟩
    show childrenOf R.id (st2.tasks ++ extra3) = _
    rw [childrenOf_append, childrenOf_nil_of_prop hprop3 hpost]
    show childrenOf R.id (st1.tasks ++ [childPayload uid d R st1.nextId]) ++ [] = _
    rw [childrenOf_append, hch1]
    simp [childrenOf, childPayload]

/-- Running phase 3 over `pre ++ R :: post` when `R` already has exactly one
instance that the duplicate check finds: nothing changes for `R`. -/
theorem routineLoop_keeps_single (uid d : Nat) (R : TaskRec) (pre post : List TaskRec)
    (n : Nat) (st : St) (c : TaskRec)
    (hpre : ∀ rt ∈ pre, rt.id ≠ R.id) (hpost : ∀ rt ∈ post, rt.id ≠ R.id)
    (hch : childrenOf R.id st.tasks = [c]) (hdupc : dupFilter uid R.id d c = true) :
    ∃ n' st', routineLoop (pureCfg uid) d (pre ++ R :: post) n st = .ok ((), n', st') ∧
      childrenOf R.id st'.tasks = [c] ∧ (wfSt st = true → wfSt st' = true) := by
  obtain ⟨n1, extra1, hrun1, hprop1, hwf1⟩ := routineLoop_pure uid d pre n st
  set st1 : St := { st with tasks := st.tasks ++ extra1, nextId := st.nextId + extra1.length }
    with hst1
  have hch1 : childrenOf R.id st1.tasks = [c] := by
    show childrenOf R.id (st.tasks ++ extra1) = [c]
    rw [childrenOf_append, hch, childrenOf_nil_of_prop hprop1 hpre]
    rfl
  have hcmem : c ∈ st1.tasks := by
    have : c ∈ childrenOf R.id st1.tasks := by
      rw [hch1]
      exact List.mem_singleton_self c
    exact (List.mem_filter.mp this).1
  by_cases hmatch : rrule_matches R.recurrence d
  · obtain ⟨t, hdup⟩ := head?_dup_some hcmem hdupc
    have hstep : routineLoop (pureCfg uid) d (R :: post) n1 st1
        = routineLoop (pureCfg uid) d post (n1 + 1) st1 := by
      simp only [routineLoop]
      rw [if_pos hmatch, request_pure, pureCfg_userId, hdup]
    obtain ⟨n3, extra3, hrun3, hprop3, hwf3⟩ := routineLoop_pure uid d post (n1 + 1) st1
    refine ⟨n3, { st1 with tasks := st1.tasks ++ extra3, nextId := st1.nextId + extra3.length },
      ?_, ?_, fun hwfst => hwf3 (hwf1 hwfst)⟩
    · rw [routineLoop_append_pure, hrun1]
      show routineLoop (pureCfg uid) d (R :: post) n1 st1 = _
      rw [hstep, hrun3]
    · show childrenOf R.id (st1.tasks ++ extra3) = _
      rw [childrenOf_append, hch1, childrenOf_nil_of_prop hprop3 hpost, List.append_nil]
  · have hstep : routineLoop (pureCfg uid) d (R :: post) n1 st1
        = routineLoop (pureCfg uid) d post n1 st1 := by
      simp only [routineLoop]
      rw [if_neg hmatch]
    obtain ⟨n3, extra3, hrun3, hprop3, hwf3⟩ := routineLoop_pure uid d post n1 st1
    refine ⟨n3, { st1 with tasks := st1.tasks ++ extra3, nextId := st1.nextId + extra3.length },
      ?_, ?_, fun hwfst => hwf3 (hwf1 hwfst)⟩
    · rw [routineLoop_append_pure, hrun1]
      show routineLoop (pureCfg uid) d (R :: post) n1 st1 = _
      rw [hstep, hrun3]
    · show childrenOf R.id (st1.tasks ++ extra3) = _
      rw [childrenOf_append, hch1, childrenOf_nil_of_prop hprop3 hpost, List.append_nil]

/-- Decomposition: `prepare_today` is the sequential composition of the four phases in the
error monad (failures short-circuit carrying the store state unchanged). -/
theorem prepare_today_eq_phases (cfg : Cfg) (d n : Nat) (st : St) :
    prepare_today cfg d n st =
      reqBind (ensure_page cfg d) (fun _ =>
        reqBind (phase2 cfg d) (fun _ =>
          reqBind (phase3 cfg d) (fun _ => phase4 cfg d))) n st := by
  unfold prepare_today phase2 phase3 phase4 reqBind
  cases ensure_page cfg d n st with
  | error e => rfl
  | ok a =>
    obtain ⟨p, n1, st1⟩ := a
    dsimp only
    cases request cfg (fun s => s) (fun s => s.tasks.filter (migrFilter cfg.userId (d - 1))) n1 st1 with
    | error e => rfl
    | ok b =>
      obtain ⟨ts, n2, st2⟩ := b
      dsimp only
      cases migrateLoop cfg d ts n2 st2 with
      | error e => rfl
      | ok c =>
        obtain ⟨u, n3, st3⟩ := c
        dsimp only
        cases request cfg (fun s => s) (fun s => s.tasks.filter (routineFilter cfg.userId)) n3 st3 with
        | error e => rfl
        | ok e4 =>
          obtain ⟨rts, n4, st4⟩ := e4
          dsimp only
          cases routineLoop cfg d rts n4 st4 with
          | error e => rfl
          | ok f =>
            obtain ⟨v, n5, st5⟩ := f
            dsimp only
            cases request cfg (fun s => s) (fun s => s.tasks.filter (eventFilter cfg.userId d)) n5 st5 with
            | error e => rfl
            | ok g =>
              obtain ⟨evs, n6, st6⟩ := g
              rfl

theorem splitOnChar_ne_nil (c : Char) (xs : List Char) : splitOnChar c xs ≠ [] := by
  cases xs with
  | nil => simp [splitOnChar]
  | cons a as =>
    simp only [splitOnChar]
    cases splitOnChar c as with
    | nil => by_cases h : a = c <;> simp [h]
    | cons r rs => by_cases h : a = c <;> simp [h]

theorem splitOnChar_of_not_mem {c : Char} {xs : List Char} (h : c ∉ xs) :
    splitOnChar c xs = [xs] := by
  induction xs with
  | nil => rfl
  | cons a as ih =>
    have ha : ¬ a = c := fun e => h (by rw [e]; exact List.mem_cons_self _ _)
    have h2 : c ∉ as := fun hm => h (List.mem_cons_of_mem _ hm)
    simp only [splitOnChar]
    rw [ih h2]
    dsimp only
    rw [if_neg ha]

theorem splitOnChar_append {c : Char} {xs ys : List Char} (h : c ∉ xs) :
    splitOnChar c (xs ++ c :: ys) = xs :: splitOnChar c ys := by
  induction xs with
  | nil =>
    simp only [List.nil_append, splitOnChar]
    cases hs : splitOnChar c ys with
    | nil => exact absurd hs (splitOnChar_ne_nil c ys)
    | cons r rs => simp
  | cons a as ih =>
    have ha : ¬ a = c := fun e => h (by rw [e]; exact List.mem_cons_self _ _)
    have h2 : c ∉ as := fun hm => h (List.mem_cons_of_mem _ hm)
    rw [List.cons_append]
    simp only [splitOnChar, List.append_eq]
    rw [ih h2]
    dsimp only
    rw [if_neg ha]

theorem splitComma_joinComma {bs : List (List Char)} (hne : bs ≠ [])
    (hc : ∀ b ∈ bs, ',' ∉ b) : splitOnChar ',' (joinComma bs) = bs := by
  induction bs with
  | nil => exact absurd rfl hne
  | cons b bs ih =>
    cases bs with
    | nil =>
      show splitOnChar ',' b = [b]
      exact splitOnChar_of_not_mem (hc b (List.mem_cons_self _ _))
    | cons b2 bs2 =>
      show splitOnChar ',' (b ++ ',' :: joinComma (b2 :: bs2)) = _
      rw [splitOnChar_append (hc b (List.mem_cons_self _ _))]
      rw [ih (by simp) (fun x hx => hc x (List.mem_cons_of_mem _ hx))]

theorem not_mem_joinComma {ch : Char} (hch : ¬ ch = ',') :
    ∀ {bs : List (List Char)}, (∀ b ∈ bs, ch ∉ b) → ch ∉ joinComma bs := by
  intro bs
  induction bs with
  | nil => intro _ hm; exact absurd hm (List.not_mem_nil ch)
  | cons b bs ih =>
    intro hb hm
    cases bs with
    | nil => exact hb b (List.mem_cons_self _ _) hm
    | cons b2 bs2 =>
      have : ch ∈ b ++ ',' :: joinComma (b2 :: bs2) := hm
      rcases List.mem_append.mp this with h1 | h1
      · exact hb b (List.mem_cons_self _ _) h1
      · rcases List.mem_cons.mp h1 with h2 | h2
        · exact hch h2
        · exact ih (fun x hx => hb x (List.mem_cons_of_mem _ hx)) h2

theorem removeBYDAY_of_not_mem {l : List Char} (h : 'B' ∉ l) : removeBYDAY l = l := by
  induction l with
  | nil => rfl
  | cons c cs ih =>
    have hc : ¬ c = 'B' := fun e => h (by rw [e]; exact List.mem_cons_self _ _)
    have h2 : 'B' ∉ cs := fun hm => h (List.mem_cons_of_mem _ hm)
    rw [removeBYDAY.eq_def]
    split
    · next rest heq =>
      injection heq with h1 _
      exact absurd h1 hc
    · next c2 cs2 hno heq =>
      injection heq with h1 hcs
      subst h1
      subst hcs
      rw [ih h2]
    · next heq => cases heq

theorem weekday_map_facts : ∀ b ∈ weekday_map, b.map Char.toUpper = b ∧ ';' ∉ b ∧ ',' ∉ b ∧
    'B' ∉ b ∧ stripWs b = b ∧ b ≠ [] := by decide

theorem isPrefixOf_append_self (p r : List Char) : p.isPrefixOf (p ++ r) = true := by
  induction p with
  | nil => simp [List.isPrefixOf]
  | cons c cs ih => simp [List.isPrefixOf, ih]

theorem containsSub_of_isPrefixOf {p s : List Char} (h : p.isPrefixOf s = true) :
    containsSub p s = true := by
  cases s with
  | nil => simpa [containsSub] using h
  | cons c cs => simp [containsSub, h]

theorem mapUpper_joinComma {bs : List (List Char)} (h : ∀ b ∈ bs, b.map Char.toUpper = b) :
    (joinComma bs).map Char.toUpper = joinComma bs := by
  induction bs with
  | nil => rfl
  | cons b bs ih =>
    cases bs with
    | nil => exact h b (List.mem_cons_self _ _)
    | cons b2 bs2 =>
      show (b ++ ',' :: joinComma (b2 :: bs2)).map Char.toUpper = _
      rw [List.map_append, h b (List.mem_cons_self _ _), List.map_cons,
        ih (fun x hx => h x (List.mem_cons_of_mem _ hx))]
      rfl

/-- The weekly matcher on a well-formed `FREQ=WEEKLY;BYDAY=...` expression is
exactly membership of today's weekday token in the listed set. -/
theorem rrule_matches_byday (bs : List (List Char)) (hne : bs ≠ [])
    (hmem : ∀ b ∈ bs, b ∈ weekday_map) (d : Nat) :
    rrule_matches (toL "FREQ=WEEKLY;BYDAY=" ++ joinComma bs) d
      = bs.contains (today_token d) := by
  have hfacts : ∀ b ∈ bs, _ := fun b hb => weekday_map_facts b (hmem b hb)
  have hup : ∀ b ∈ bs, b.map Char.toUpper = b := fun b hb => (hfacts b hb).1
  have hsemi : ∀ b ∈ bs, ';' ∉ b := fun b hb => (hfacts b hb).2.1
  have hcomma : ∀ b ∈ bs, ',' ∉ b := fun b hb => (hfacts b hb).2.2.1
  have hB : ∀ b ∈ bs, 'B' ∉ b := fun b hb => (hfacts b hb).2.2.2.1
  have hstrip : ∀ b ∈ bs, stripWs b = b := fun b hb => (hfacts b hb).2.2.2.2.1
  have hnil : ∀ b ∈ bs, b ≠ [] := fun b hb => (hfacts b hb).2.2.2.2.2
  have hj_up : (joinComma bs).map Char.toUpper = joinComma bs := mapUpper_joinComma hup
  have hj_semi : ';' ∉ joinComma bs := not_mem_joinComma (by decide) hsemi
  have hj_B : 'B' ∉ joinComma bs := not_mem_joinComma (by decide) hB
  simp only [rrule_matches]
  have hup_all : (toL "FREQ=WEEKLY;BYDAY=" ++ joinComma bs).map Char.toUpper
      = toL "FREQ=WEEKLY;BYDAY=" ++ joinComma bs := by
    rw [List.map_append, hj_up]
    congr 1
  rw [hup_all]
  have hpre : (toL "FREQ=WEEKLY").isPrefixOf (toL "FREQ=WEEKLY;BYDAY=" ++ joinComma bs) = true := by
    have hsp : toL "FREQ=WEEKLY;BYDAY=" ++ joinComma bs
        = toL "FREQ=WEEKLY" ++ (toL ";BYDAY=" ++ joinComma bs) := rfl
    rw [hsp]
    exact isPrefixOf_append_self _ _
  rw [if_pos (containsSub_of_isPrefixOf hpre)]
  have hsplit : splitOnChar ';' (toL "FREQ=WEEKLY;BYDAY=" ++ joinComma bs)
      = [toL "FREQ=WEEKLY", toL "BYDAY=" ++ joinComma bs] := by
    have h1 : toL "FREQ=WEEKLY;BYDAY=" ++ joinComma bs
        = toL "FREQ=WEEKLY" ++ ';' :: (toL "BYDAY=" ++ joinComma bs) := rfl
    rw [h1, splitOnChar_append (by decide), splitOnChar_of_not_mem]
    intro hm
    rcases List.mem_append.mp hm with h | h
    · exact absurd h (by decide)
    · exact hj_semi h
  rw [hsplit]
  have hparse : parse_byday [toL "FREQ=WEEKLY", toL "BYDAY=" ++ joinComma bs]
      = bydayTokens (toL "BYDAY=" ++ joinComma bs) := by
    simp only [parse_byday, List.foldl_cons, List.foldl_nil]
    rw [if_pos (isPrefixOf_append_self (toL "BYDAY=") (joinComma bs))]
  rw [hparse]
  have htok : bydayTokens (toL "BYDAY=" ++ joinComma bs) = bs := by
    unfold bydayTokens
    have hrm : removeBYDAY (toL "BYDAY=" ++ joinComma bs) = joinComma bs := by
      show removeBYDAY ('B' :: 'Y' :: 'D' :: 'A' :: 'Y' :: '=' :: joinComma bs) = _
      rw [show removeBYDAY ('B' :: 'Y' :: 'D' :: 'A' :: 'Y' :: '=' :: joinComma bs)
          = removeBYDAY (joinComma bs) from rfl]
      exact removeBYDAY_of_not_mem hj_B
    rw [hrm, splitComma_joinComma hne hcomma]
    have hms : bs.map stripWs = bs := by
      have h1 : bs.map stripWs = bs.map id :=
        List.map_congr_left (fun b hb => (hstrip b hb : stripWs b = id b))
      rw [h1, List.map_id]
    rw [hms]
    rw [List.filter_eq_self.mpr]
    intro b hb
    simpa using hnil b hb
  rw [htok]
  cases bs with
  | nil => exact absurd rfl hne
  | cons b bs2 => rfl

theorem migStep_id (uid d : Nat) : ∀ u, (migStep uid d u).id = u.id := by
  intro u
  unfold migStep
  by_cases h : migrFilter uid (d - 1) u = true
  · rw [if_pos h]
    rfl
  · rw [if_neg h]

theorem evStep_id (uid d : Nat) : ∀ u, (evStep uid d u).id = u.id := by
  intro u
  unfold evStep
  by_cases h : eventFilter uid d u = true
  · rw [if_pos h]
    by_cases h2 : u.journal_date = some d
    · rw [if_pos h2]
    · rw [if_neg h2]
      rfl
  · rw [if_neg h]

theorem rrule_matches_nil (d : Nat) : rrule_matches [] d = false := rfl

theorem ensure_page_pure_shape (uid d n : Nat) (st : St) :
    ∃ p n' st', ensure_page (pureCfg uid) d n st = .ok (p, n', st') ∧
      st'.tasks = st.tasks ∧ (wfSt st = true → wfSt st' = true) := by
  rw [ensure_page_pure]
  cases findPage uid d st with
  | some p => exact ⟨p, n + 1, st, rfl, rfl, fun h => h⟩
  | none =>
    refine ⟨_, n + 2, createPage uid d st, rfl, rfl, ?_⟩
    intro h
    unfold wfSt at h ⊢
    simp only [createPage]
    exact wfTasks_mono h (Nat.le_succ _)

theorem reqBind_ok {α β : Type} (x : ReqM α) (f : α → ReqM β) (n n1 : Nat) (st st1 : St)
    (a : α) (hx : x n st = .ok (a, n1, st1)) : reqBind x f n st = f a n1 st1 := by
  unfold reqBind
  rw [hx]

theorem phase3_of_loop (uid d m : Nat) (stF : St) (out : Except (Nat × St) (Unit × Nat × St))
    (hloop : routineLoop (pureCfg uid) d (stF.tasks.filter (routineFilter uid)) (m + 1) stF
      = out) : phase3 (pureCfg uid) d m stF = out := by
  unfold phase3
  rw [reqBind, request_pure, pureCfg_userId]
  exact hloop

/-- One full benign `prepare_today` run starting with no instance of routine
`R`: it succeeds, keeps the store well-formed, keeps `R`, and ends with
exactly one instance of `R` (today's child). -/
theorem prepare_run_creates (uid d n : Nat) (st : St) (R : TaskRec)
    (hwf : wfSt st = true) (hR : R ∈ st.tasks) (hRo : R.owner = uid)
    (hRk : R.kind = Kind.routine) (hmatch : rrule_matches R.recurrence d = true)
    (hch : childrenOf R.id st.tasks = []) :
    ∃ n1 st1, prepare_today (pureCfg uid) d n st = .ok ((), n1, st1) ∧
      wfSt st1 = true ∧ R ∈ st1.tasks ∧
      ∃ c, childrenOf R.id st1.tasks = [c] ∧ c.owner = uid ∧ c.journal_date = some d ∧
        c.parent_task = some R.id := by
  have hRnotodo : ¬ R.kind = Kind.todo := by rw [hRk]; intro hcon; cases hcon
  have hRnoev : ¬ R.kind = Kind.event := by rw [hRk]; intro hcon; cases hcon
  obtain ⟨p, nE, stE, hrunE, hEtasks, hEwf⟩ := ensure_page_pure_shape uid d n st
  have hwfE : wfSt stE = true := hEwf hwf
  have h2 := phase2_pure uid d nE stE hwfE
  set stF : St := { stE with tasks := stE.tasks.map (migStep uid d) } with hstF
  have hwfF : wfSt stF = true := by
    unfold wfSt at hwfE ⊢
    exact wfTasks_map_id _ (migStep_id uid d) hwfE
  have hRE : R ∈ stE.tasks := by rw [hEtasks]; exact hR
  have hRF : R ∈ stF.tasks :=
    List.mem_map.mpr ⟨R, hRE, migStep_of_kind hRnotodo⟩
  have hchF : childrenOf R.id stF.tasks = [] := by
    show childrenOf R.id (stE.tasks.map (migStep uid d)) = []
    rw [childrenOf_map _ _ _ (fun u => ((migStep_gentle uid d) u).1), hEtasks, hch]
    rfl
  have hRfilter : R ∈ stF.tasks.filter (routineFilter uid) := by
    refine List.mem_filter.mpr ⟨hRF, ?_⟩
    simp only [routineFilter, Bool.and_eq_true, decide_eq_true_eq]
    refine ⟨⟨hRo, hRk⟩, ?_⟩
    intro hnil
    rw [hnil, rrule_matches_nil] at hmatch
    exact Bool.noConfusion hmatch
  obtain ⟨pre, post, hdecomp⟩ := List.append_of_mem hRfilter
  have hpw : (stF.tasks.filter (routineFilter uid)).Pairwise (fun a c => a.id ≠ c.id) :=
    (wf_pairwise hwfF).filter _
  rw [hdecomp] at hpw
  have hpre : ∀ rt ∈ pre, rt.id ≠ R.id := fun rt hrt =>
    (List.pairwise_append.mp hpw).2.2 rt hrt R (List.mem_cons_self _ _)
  have hpost : ∀ rt ∈ post, rt.id ≠ R.id := fun rt hrt =>
    Ne.symm ((List.pairwise_cons.mp (List.pairwise_append.mp hpw).2.1).1 rt hrt)
  obtain ⟨nG, stG, hloopG, hwfG, hkeepG, c, hchG, hco, hcj, hcp⟩ :=
    routineLoop_materializes uid d R pre post (nE + 1 + (stE.tasks.filter
      (migrFilter uid (d - 1))).length + 1) stF hmatch hpre hpost hchF hwfF
  have h3 : phase3 (pureCfg uid) d (nE + 1 + (stE.tasks.filter
      (migrFilter uid (d - 1))).length) stF = .ok ((), nG, stG) := by
    apply phase3_of_loop
    rw [hdecomp]
    exact hloopG
  have h4 := phase4_pure uid d nG stG hwfG
  refine ⟨nG + 1 + ((stG.tasks.filter (eventFilter uid d)).filter
      (fun ev => decide (¬ ev.journal_date = some d))).length,
    { stG with tasks := stG.tasks.map (evStep uid d) }, ?_, ?_, ?_, ?_⟩
  · rw [prepare_today_eq_phases, reqBind_ok _ _ _ _ _ _ _ hrunE,
      reqBind_ok _ _ _ _ _ _ _ h2, reqBind_ok _ _ _ _ _ _ _ h3]
    exact h4
  · unfold wfSt at hwfG ⊢
    exact wfTasks_map_id _ (evStep_id uid d) hwfG
  · exact List.mem_map.mpr ⟨R, hkeepG R hRF, evStep_of_kind hRnoev⟩
  · refine ⟨evStep uid d c, ?_, ?_, ?_, ?_⟩
    · show childrenOf R.id (stG.tasks.map (evStep uid d)) = _
      rw [childrenOf_map _ _ _ (fun u => ((evStep_gentle uid d) u).1), hchG]
      rfl
    · rw [((evStep_gentle uid d) c).2.1, hco]
    · rcases ((evStep_gentle uid d) c).2.2 with h | h
      · rw [h, hcj]
      · rw [h]
    · rw [((evStep_gentle uid d) c).1, hcp]

/-- One full benign `prepare_today` run starting with exactly one instance
of routine `R` (today's child): the duplicate check finds it and no second
instance appears. -/
theorem prepare_run_keeps (uid d n : Nat) (st : St) (R : TaskRec) (c : TaskRec)
    (hwf : wfSt st = true) (hR : R ∈ st.tasks) (hRo : R.owner = uid)
    (hRk : R.kind = Kind.routine) (hmatch : rrule_matches R.recurrence d = true)
    (hch : childrenOf R.id st.tasks = [c]) (hco : c.owner = uid)
    (hcj : c.journal_date = some d) :
    ∃ n1 st1, prepare_today (pureCfg uid) d n st = .ok ((), n1, st1) ∧
      ∃ c2, childrenOf R.id st1.tasks = [c2] ∧ c2.journal_date = some d ∧
        c2.parent_task = some R.id := by
  have hRnotodo : ¬ R.kind = Kind.todo := by rw [hRk]; intro hcon; cases hcon
  have hcp : c.parent_task = some R.id := by
    have hcmem : c ∈ childrenOf R.id st.tasks := by
      rw [hch]
      exact List.mem_singleton_self c
    have := (List.mem_filter.mp hcmem).2
    simpa using this
  obtain ⟨p, nE, stE, hrunE, hEtasks, hEwf⟩ := ensure_page_pure_shape uid d n st
  have hwfE : wfSt stE = true := hEwf hwf
  have h2 := phase2_pure uid d nE stE hwfE
  set stF : St := { stE with tasks := stE.tasks.map (migStep uid d) } with hstF
  have hwfF : wfSt stF = true := by
    unfold wfSt at hwfE ⊢
    exact wfTasks_map_id _ (migStep_id uid d) hwfE
  have hRE : R ∈ stE.tasks := by rw [hEtasks]; exact hR
  have hRF : R ∈ stF.tasks :=
    List.mem_map.mpr ⟨R, hRE, migStep_of_kind hRnotodo⟩
  set c2 : TaskRec := migStep uid d c with hc2
  have hchF : childrenOf R.id stF.tasks = [c2] := by
    show childrenOf R.id (stE.tasks.map (migStep uid d)) = _
    rw [childrenOf_map _ _ _ (fun u => ((migStep_gentle uid d) u).1), hEtasks, hch]
    rfl
  have hc2o : c2.owner = uid := by rw [hc2, ((migStep_gentle uid d) c).2.1, hco]
  have hc2j : c2.journal_date = some d := by
    rcases ((migStep_gentle uid d) c).2.2 with h | h
    · rw [hc2, h, hcj]
    · rw [hc2]
      exact h
  have hc2p : c2.parent_task = some R.id := by
    rw [hc2, ((migStep_gentle uid d) c).1, hcp]
  have hdupc2 : dupFilter uid R.id d c2 = true := by
    simp [dupFilter, hc2o, hc2j, hc2p]
  have hRfilter : R ∈ stF.tasks.filter (routineFilter uid) := by
    refine List.mem_filter.mpr ⟨hRF, ?_⟩
    simp only [routineFilter, Bool.and_eq_true, decide_eq_true_eq]
    refine ⟨⟨hRo, hRk⟩, ?_⟩
    intro hnil
    rw [hnil, rrule_matches_nil] at hmatch
    exact Bool.noConfusion hmatch
  obtain ⟨pre, post, hdecomp⟩ := List.append_of_mem hRfilter
  have hpw : (stF.tasks.filter (routineFilter uid)).Pairwise (fun a c => a.id ≠ c.id) :=
    (wf_pairwise hwfF).filter _
  rw [hdecomp] at hpw
  have hpre : ∀ rt ∈ pre, rt.id ≠ R.id := fun rt hrt =>
    (List.pairwise_append.mp hpw).2.2 rt hrt R (List.mem_cons_self _ _)
  have hpost : ∀ rt ∈ post, rt.id ≠ R.id := fun rt hrt =>
    Ne.symm ((List.pairwise_cons.mp (List.pairwise_append.mp hpw).2.1).1 rt hrt)
  obtain ⟨nG, stG, hloopG, hchG, hwfG'⟩ := routineLoop_keeps_single uid d R pre post
    (nE + 1 + (stE.tasks.filter (migrFilter uid (d - 1))).length + 1) stF c2
    hpre hpost hchF hdupc2
  have hwfG : wfSt stG = true := hwfG' hwfF
  have h3 : phase3 (pureCfg uid) d (nE + 1 + (stE.tasks.filter
      (migrFilter uid (d - 1))).length) stF = .ok ((), nG, stG) := by
    apply phase3_of_loop
    rw [hdecomp]
    exact hloopG
  have h4 := phase4_pure uid d nG stG hwfG
  refine ⟨nG + 1 + ((stG.tasks.filter (eventFilter uid d)).filter
      (fun ev => decide (¬ ev.journal_date = some d))).length,
    { stG with tasks := stG.tasks.map (evStep uid d) }, ?_, ?_⟩
  · rw [prepare_today_eq_phases, reqBind_ok _ _ _ _ _ _ _ hrunE,
      reqBind_ok _ _ _ _ _ _ _ h2, reqBind_ok _ _ _ _ _ _ _ h3]
    exact h4
  · refine ⟨evStep uid d c2, ?_, ?_, ?_⟩
    · show childrenOf R.id (stG.tasks.map (evStep uid d)) = _
      rw [childrenOf_map _ _ _ (fun u => ((evStep_gentle uid d) u).1), hchG]
      rfl
    · rcases ((evStep_gentle uid d) c2).2.2 with h | h
      · rw [h]
        exact hc2j
      · exact h
    · rw [((evStep_gentle uid d) c2).1]
      exact hc2p

theorem phase3_pure_shape (uid d m : Nat) (stF : St) :
    ∃ nG stG, phase3 (pureCfg uid) d m stF = .ok ((), nG, stG) ∧
      (∀ u ∈ stF.tasks, u ∈ stG.tasks) ∧ (wfSt stF = true → wfSt stG = true) := by
  obtain ⟨nG, extra, hrun, hprop, hwfp⟩ :=
    routineLoop_pure uid d (stF.tasks.filter (routineFilter uid)) (m + 1) stF
  refine ⟨nG, _, phase3_of_loop uid d m stF _ hrun, ?_, hwfp⟩
  intro u hu
  exact List.mem_append_left _ hu

/-- C2: after `prepare_today(today)` on a well-formed store, every task A
with `owner = user`, `status = open`, `kind = todo`, `journal_date =
yesterday` ends up (same id) with `journal_date = today` and
`migrated_count` increased by exactly 1 and every other field unchanged
(the record-update form `{ A with journal_date, migrated_count }`); and a
task B not matching that filter is not modified by the migration phase
(B survives phase 2 verbatim). -/
theorem c2_migration_moves_open_todos (uid d n : Nat) (st : St) (A : TaskRec)
    (hwf : wfSt st = true) (_hd : 0 < d) (hA : A ∈ st.tasks)
    (hAf : migrFilter uid (d - 1) A = true) :
    (∃ n1 st1, prepare_today (pureCfg uid) d n st = .ok ((), n1, st1) ∧
      { A with
          journal_date := some d,
          migrated_count := some (A.migrated_count.getD 0 + 1) } ∈ st1.tasks) ∧
    (∃ n2 st2, phase2 (pureCfg uid) d n st = .ok ((), n2, st2) ∧
      ∀ B ∈ st.tasks, ¬ migrFilter uid (d - 1) B = true → B ∈ st2.tasks) := by
  have hAkind : A.kind = Kind.todo := migrFilter_kind hAf
  constructor
  · obtain ⟨p, nE, stE, hrunE, hEtasks, hEwf⟩ := ensure_page_pure_shape uid d n st
    have hwfE : wfSt stE = true := hEwf hwf
    have h2 := phase2_pure uid d nE stE hwfE
    set stF : St := { stE with tasks := stE.tasks.map (migStep uid d) } with hstF
    have hwfF : wfSt stF = true := by
      unfold wfSt at hwfE ⊢
      exact wfTasks_map_id _ (migStep_id uid d) hwfE
    set A2 : TaskRec := { A with
      journal_date := some d,
      migrated_count := some (A.migrated_count.getD 0 + 1) } with hA2
    have hAF : A2 ∈ stF.tasks := by
      refine List.mem_map.mpr ⟨A, by rw [hEtasks]; exact hA, ?_⟩
      unfold migStep
      rw [if_pos hAf]
      rfl
    obtain ⟨nG, stG, h3, hkeep, hwfp⟩ := phase3_pure_shape uid d
      (nE + 1 + (stE.tasks.filter (migrFilter uid (d - 1))).length) stF
    have hwfG : wfSt stG = true := hwfp hwfF
    have h4 := phase4_pure uid d nG stG hwfG
    refine ⟨nG + 1 + ((stG.tasks.filter (eventFilter uid d)).filter
        (fun ev => decide (¬ ev.journal_date = some d))).length,
      { stG with tasks := stG.tasks.map (evStep uid d) }, ?_, ?_⟩
    · rw [prepare_today_eq_phases, reqBind_ok _ _ _ _ _ _ _ hrunE,
        reqBind_ok _ _ _ _ _ _ _ h2, reqBind_ok _ _ _ _ _ _ _ h3]
      exact h4
    · refine List.mem_map.mpr ⟨A2, hkeep A2 hAF, ?_⟩
      apply evStep_of_kind
      show ¬ A2.kind = Kind.event
      rw [hA2]
      show ¬ A.kind = Kind.event
      rw [hAkind]
      intro hcon
      cases hcon
  · refine ⟨_, _, phase2_pure uid d n st hwf, ?_⟩
    intro B hB hBf
    refine List.mem_map.mpr ⟨B, hB, ?_⟩
    unfold migStep
    rw [if_neg hBf]

/-- C2 witness: one matching task, day `d = 1`. -/
theorem c2_migration_moves_open_todos_witness :
    (∃ n1 st1, prepare_today (pureCfg 0) 1 0 wMigSt = .ok ((), n1, st1) ∧
      { wYesterdayTask with
        journal_date := some 1,
        migrated_count := some (wYesterdayTask.migrated_count.getD 0 + 1) } ∈ st1.tasks) ∧
    (∃ n2 st2, phase2 (pureCfg 0) 1 0 wMigSt = .ok ((), n2, st2) ∧
      ∀ B ∈ wMigSt.tasks, ¬ migrFilter 0 (1 - 1) B = true → B ∈ st2.tasks) :=
  c2_migration_moves_open_todos 0 1 0 wMigSt wYesterdayTask
    (by decide) (by decide) (by decide) (by decide)

/-- C6: phase 4 of `prepare_today` patches `journal_date = today` on exactly
the tasks with `kind = event` and `start_at` in `[today 00:00:00Z,
today 23:59:59Z)` whose `journal_date` is not already today: its request
count is 1 (the GET) plus one PATCH per such event — an event already on
today's page contributes no request — and the store map `evStep` rewrites
exactly the events in the window with a differing `journal_date`, leaving
every other task untouched. -/
theorem c6_event_reconciliation (uid d n : Nat) (st : St) (hwf : wfSt st = true) :
    phase4 (pureCfg uid) d n st =
      .ok ((), n + 1 + ((st.tasks.filter (eventFilter uid d)).filter
            (fun ev => decide (¬ ev.journal_date = some d))).length,
           { st with tasks := st.tasks.map (evStep uid d) }) ∧
    (∀ u, eventFilter uid d u = true → ¬ u.journal_date = some d →
      evStep uid d u = { u with journal_date := some d }) ∧
    (∀ u, ¬ (eventFilter uid d u = true ∧ ¬ u.journal_date = some d) →
      evStep uid d u = u) := by
  refine ⟨phase4_pure uid d n st hwf, ?_, ?_⟩
  · intro u h1 h2
    unfold evStep
    rw [if_pos h1, if_neg h2]
    rfl
  · intro u h
    unfold evStep
    by_cases h1 : eventFilter uid d u = true
    · rw [if_pos h1]
      by_cases h2 : u.journal_date = some d
      · rw [if_pos h2]
      · exact absurd ⟨h1, h2⟩ h
    · rw [if_neg h1]

/-- C6 witness: one event already on today's page (no patch request), one
event off the page (patched): 1 GET + 1 PATCH, and only the second event
changes. -/
theorem c6_event_reconciliation_witness :
    phase4 (pureCfg 0) 0 0 { tasks := [wEvOn, wEvOff], pages := [], nextId := 3 }
      = .ok ((), 2,
          { tasks := [wEvOn, { wEvOff with journal_date := some 0 }],
            pages := [],
            nextId := 3 }) := by
  have h := (c6_event_reconciliation 0 0 0
    { tasks := [wEvOn, wEvOff], pages := [], nextId := 3 } (by decide)).1
  rw [h]
  rfl

/-- C10: the migration patch always writes `migrated_count` as `some` of
(stored value treated as 0 when absent/null/0, plus 1): a task with
`migrated_count` absent/null or 0 ends phase 2 with `migrated_count = 1`,
and the field is never written back as null. -/
theorem c10_migrated_count_falsy (uid d n : Nat) (st : St) (t : TaskRec)
    (hwf : wfSt st = true) (ht : t ∈ st.tasks) (htf : migrFilter uid (d - 1) t = true) :
    (∃ n2 st2, phase2 (pureCfg uid) d n st = .ok ((), n2, st2) ∧
      { t with
          journal_date := some d,
          migrated_count := some (t.migrated_count.getD 0 + 1) } ∈ st2.tasks) ∧
    ((t.migrated_count = none ∨ t.migrated_count = some 0) →
      some (t.migrated_count.getD 0 + 1) = some 1) := by
  constructor
  · refine ⟨_, _, phase2_pure uid d n st hwf, ?_⟩
    refine List.mem_map.mpr ⟨t, ht, ?_⟩
    unfold migStep
    rw [if_pos htf]
    rfl
  · rintro (h | h) <;> rw [h] <;> rfl

/-- C10 witness: a first-time-migrated task (`migrated_count` absent) ends
with `migrated_count = some 1`. -/
theorem c10_migrated_count_falsy_witness :
    (∃ n2 st2, phase2 (pureCfg 0) 1 0 wMigSt = .ok ((), n2, st2) ∧
      { wYesterdayTask with
        journal_date := some 1,
        migrated_count := some (wYesterdayTask.migrated_count.getD 0 + 1) } ∈ st2.tasks) ∧
    ((wYesterdayTask.migrated_count = none ∨ wYesterdayTask.migrated_count = some 0) →
      some (wYesterdayTask.migrated_count.getD 0 + 1) = some 1) :=
  c10_migrated_count_falsy 0 1 0 wMigSt wYesterdayTask (by decide) (by decide) (by decide)

/-- C1: for a routine task R owned by the user whose recurrence matches day
D, with no pre-existing instance of R, running `prepare_today(D)` twice
sequentially with no interleaved writers leaves exactly one task with
`parent_task = R.id` and `journal_date = D`: the first run creates today's
instance, and the second run's phase-3 duplicate check finds it and issues
no second create. -/
theorem c1_idempotent_materialization (uid d n : Nat) (st : St) (R : TaskRec)
    (hwf : wfSt st = true) (hR : R ∈ st.tasks) (hRo : R.owner = uid)
    (hRk : R.kind = Kind.routine) (hmatch : rrule_matches R.recurrence d = true)
    (hch : childrenOf R.id st.tasks = []) :
    ∃ n1 st1 n2 st2,
      prepare_today (pureCfg uid) d n st = .ok ((), n1, st1) ∧
      prepare_today (pureCfg uid) d n1 st1 = .ok ((), n2, st2) ∧
      (st2.tasks.filter (fun t => t.parent_task == some R.id
        && t.journal_date == some d)).length = 1 := by
  obtain ⟨n1, st1, hrun1, hwf1, hR1, c, hch1, hco, hcj, hcp⟩ :=
    prepare_run_creates uid d n st R hwf hR hRo hRk hmatch hch
  obtain ⟨n2, st2, hrun2, c2, hch2, hc2j, hc2p⟩ :=
    prepare_run_keeps uid d n1 st1 R c hwf1 hR1 hRo hRk hmatch hch1 hco hcj
  refine ⟨n1, st1, n2, st2, hrun1, hrun2, ?_⟩
  have hsplitf : st2.tasks.filter (fun t => t.parent_task == some R.id
      && t.journal_date == some d)
      = (childrenOf R.id st2.tasks).filter (fun t => t.journal_date == some d) := by
    unfold childrenOf
    rw [List.filter_filter]
    apply List.filter_congr
    intro t _
    exact Bool.and_comm _ _
  rw [hsplitf, hch2]
  simp [hc2j]

/-- C1 witness: a store holding one weekly routine, run twice on day 3. -/
theorem c1_idempotent_materialization_witness :
    ∃ n1 st1 n2 st2,
      prepare_today (pureCfg 0) 3 0 { tasks := [wRoutine], pages := [], nextId := 1 }
        = .ok ((), n1, st1) ∧
      prepare_today (pureCfg 0) 3 n1 st1 = .ok ((), n2, st2) ∧
      (st2.tasks.filter (fun t => t.parent_task == some wRoutine.id
        && t.journal_date == some 3)).length = 1 :=
  c1_idempotent_materialization 0 3 0 { tasks := [wRoutine], pages := [], nextId := 1 }
    wRoutine (by decide) (by decide) (by decide) (by decide) (by decide) (by decide)

/-- C3: for a weekly recurrence expression with a `BYDAY` key listing
weekday tokens (e.g. `FREQ=WEEKLY;BYDAY=MO,WE,FR`), the routine is
materialized on day D iff D's two-letter weekday token is a member of the
listed set; with `FREQ=WEEKLY` and no `BYDAY` key it matches every day. -/
theorem c3_weekly_byday_matcher :
    (∀ (bs : List (List Char)), bs ≠ [] → (∀ b ∈ bs, b ∈ weekday_map) →
      ∀ d : Nat, rrule_matches (toL "FREQ=WEEKLY;BYDAY=" ++ joinComma bs) d
        = bs.contains (today_token d)) ∧
    (∀ d : Nat, rrule_matches (toL "FREQ=WEEKLY") d = true) := by
  refine ⟨rrule_matches_byday, fun d => rfl⟩

/-- C3 witness: `FREQ=WEEKLY;BYDAY=MO,WE,FR` on a Monday (day 0). -/
theorem c3_weekly_byday_matcher_witness :
    rrule_matches (toL "FREQ=WEEKLY;BYDAY=" ++ joinComma [toL "MO", toL "WE", toL "FR"]) 0
      = [toL "MO", toL "WE", toL "FR"].contains (today_token 0) :=
  c3_weekly_byday_matcher.1 [toL "MO", toL "WE", toL "FR"] (by decide) (by decide) 0

/-- C4 counterexample: `FREQ=WEEKLYX` has FREQ value `WEEKLYX` (not
`WEEKLY`), yet the code's substring test `"FREQ=WEEKLY" in rrule` accepts
it, so the routine is materialized (here on day 0) — refuting the claim
that every expression whose FREQ value differs from WEEKLY never matches. -/
theorem c4_nonweekly_counterexample :
    specFreqValue (toL "FREQ=WEEKLYX") = some (toL "WEEKLYX") ∧
    some (toL "WEEKLYX") ≠ some (toL "WEEKLY") ∧
    rrule_matches (toL "FREQ=WEEKLYX") 0 = true := by
  refine ⟨by decide, by decide, by decide⟩

/-- Helper for the amended C4: the listed set `["XX"]` never contains a
weekday token, so `FREQ=WEEKLY;BYDAY=XX` never matches, although it does
contain the substring `FREQ=WEEKLY`. -/
theorem rrule_byday_xx_never (d : Nat) :
    rrule_matches (toL "FREQ=WEEKLY;BYDAY=XX") d = false := by
  have h1 : rrule_matches (toL "FREQ=WEEKLY;BYDAY=XX") d
      = ([toL "XX"] : List (List Char)).contains (today_token d) := rfl
  rw [h1]
  show ([toL "XX"] : List (List Char)).contains (weekday_map.getD (d % 7) []) = false
  have h7 : d % 7 < 7 := Nat.mod_lt _ (by decide)
  set r := d % 7 with hr
  have hcases : r = 0 ∨ r = 1 ∨ r = 2 ∨ r = 3 ∨ r = 4 ∨ r = 5 ∨ r = 6 := by omega
  rcases hcases with h | h | h | h | h | h | h <;> rw [h] <;> decide

/-- C4 amended: any expression whose uppercased text does not contain the
substring `FREQ=WEEKLY` yields no match on every day — this covers
`FREQ=MONTHLY`, expressions without a FREQ key that lack the substring, and
malformed expressions such as `garbage;;;` — and the matcher is a total
function, so no exception is raised.  Containing the substring is necessary
for a match but not sufficient: `FREQ=WEEKLY;BYDAY=XX` contains it yet
never matches any day (while, per the counterexample, `FREQ=WEEKLYX`
matches although its FREQ value is not WEEKLY). -/
theorem c4_nonweekly_amended :
    (∀ (s : List Char) (d : Nat),
      containsSub (toL "FREQ=WEEKLY") (s.map Char.toUpper) = false →
      rrule_matches s d = false) ∧
    (∀ d : Nat, rrule_matches (toL "FREQ=MONTHLY") d = false) ∧
    (∀ d : Nat, rrule_matches (toL "garbage;;;") d = false) ∧
    containsSub (toL "FREQ=WEEKLY")
      ((toL "FREQ=WEEKLY;BYDAY=XX").map Char.toUpper) = true ∧
    (∀ d : Nat, rrule_matches (toL "FREQ=WEEKLY;BYDAY=XX") d = false) := by
  refine ⟨?_, fun d => rfl, fun d => rfl, by decide, rrule_byday_xx_never⟩
  intro s d h
  simp only [rrule_matches]
  rw [h]
  rfl

/-- C4 amended witness: `FREQ=MONTHLY` on day 0. -/
theorem c4_nonweekly_amended_witness : rrule_matches (toL "FREQ=MONTHLY") 0 = false :=
  c4_nonweekly_amended.1 (toL "FREQ=MONTHLY") 0 (by decide)

/-- C5: `_ensure_page` control flow: (i) a page found in the day window is
returned with no mutation (the state is returned unchanged, no create
issued); (ii) if the window query found nothing and the create POST fails,
the window is re-queried against the store as concurrent writers left it —
a page found there is returned instead of propagating the error; (iii) only
when the re-query also finds nothing is the failure raised. -/
theorem c5_ensure_page_recovery (cfg : Cfg) (d n : Nat) (st : St)
    (hf : cfg.fail n = false) (hx : cfg.ext n st = st) :
    (∀ p, findPage cfg.userId d st = some p →
      ensure_page cfg d n st = .ok (p, n + 1, st)) ∧
    (findPage cfg.userId d st = none → cfg.fail (n + 1) = true →
      cfg.fail (n + 2) = false →
      ∀ st2, cfg.ext (n + 2) (cfg.ext (n + 1) st) = st2 →
        (∀ p, findPage cfg.userId d st2 = some p →
          ensure_page cfg d n st = .ok (p, n + 3, st2)) ∧
        (findPage cfg.userId d st2 = none →
          ensure_page cfg d n st = .error (n + 3, st2))) := by
  have hreq1 : request cfg (fun s => s) (findPage cfg.userId d) n st
      = .ok (findPage cfg.userId d st, n + 1, st) := by
    simp only [request]
    rw [hx, hf]
    rfl
  constructor
  · intro p hp
    unfold ensure_page
    rw [hreq1, hp]
  · intro hnone hf1 hf2 st2 hst2
    have hpost : postPage cfg d (n + 1) st = .error (n + 2, cfg.ext (n + 1) st) := by
      simp only [postPage]
      rw [hf1]
      rfl
    have hreq2 : request cfg (fun s => s) (findPage cfg.userId d) (n + 2) (cfg.ext (n + 1) st)
        = .ok (findPage cfg.userId d st2, n + 3, st2) := by
      simp only [request]
      rw [hst2, hf2]
      rfl
    constructor
    · intro p hp
      unfold ensure_page
      rw [hreq1, hnone]
      show (match postPage cfg d (n + 1) st with
            | Except.ok (p, n2, st2) => Except.ok (p, n2, st2)
            | Except.error (n2, st2) =>
              match request cfg (fun s => s) (findPage cfg.userId d) n2 st2 with
              | Except.error e => Except.error e
              | Except.ok (some p, n3, st3) => Except.ok (p, n3, st3)
              | Except.ok (none, n3, st3) => Except.error (n3, st3)) = _
      rw [hpost]
      show (match request cfg (fun s => s) (findPage cfg.userId d) (n + 2)
              (cfg.ext (n + 1) st) with
            | Except.error e => Except.error e
            | Except.ok (some p, n3, st3) => Except.ok (p, n3, st3)
            | Except.ok (none, n3, st3) => Except.error (n3, st3)) = _
      rw [hreq2, hp]
    · intro hp
      unfold ensure_page
      rw [hreq1, hnone]
      show (match postPage cfg d (n + 1) st with
            | Except.ok (p, n2, st2) => Except.ok (p, n2, st2)
            | Except.error (n2, st2) =>
              match request cfg (fun s => s) (findPage cfg.userId d) n2 st2 with
              | Except.error e => Except.error e
              | Except.ok (some p, n3, st3) => Except.ok (p, n3, st3)
              | Except.ok (none, n3, st3) => Except.error (n3, st3)) = _
      rw [hpost]
      show (match request cfg (fun s => s) (findPage cfg.userId d) (n + 2)
              (cfg.ext (n + 1) st) with
            | Except.error e => Except.error e
            | Except.ok (some p, n3, st3) => Except.ok (p, n3, st3)
            | Except.ok (none, n3, st3) => Except.error (n3, st3)) = _
      rw [hreq2, hp]

/-- C5 witness: the failed create is recovered by the re-query, which finds
the concurrently created page; no error is propagated. -/
theorem c5_ensure_page_recovery_witness :
    ensure_page c5Cfg 0 0 { tasks := [], pages := [], nextId := 0 }
      = .ok ({ id := 9, owner := 0, date := 0 }, 3,
          { tasks := [], pages := [{ id := 9, owner := 0, date := 0 }], nextId := 5 }) :=
  ((c5_ensure_page_recovery c5Cfg 0 0 { tasks := [], pages := [], nextId := 0 }
      (by decide) (by decide)).2 (by decide) (by decide) (by decide)
    { tasks := [], pages := [{ id := 9, owner := 0, date := 0 }], nextId := 5 }
    (by decide)).1 { id := 9, owner := 0, date := 0 } (by decide)

/-- C7: within one `prepare_today` invocation the four phases run strictly
in order 1→2→3→4 — the run is exactly the `reqBind` composition of the
phases — and the error monad short-circuits: a computation failing with
payload `e` (the request counter and the store state at the moment of the
StorageError, i.e. with all earlier completed mutations and nothing else)
propagates `e` unchanged, so no request of any later phase is issued and no
earlier mutation is undone. -/
theorem c7_phase_order_and_failure :
    (∀ (cfg : Cfg) (d n : Nat) (st : St),
      prepare_today cfg d n st =
        reqBind (ensure_page cfg d) (fun _ =>
          reqBind (phase2 cfg d) (fun _ =>
            reqBind (phase3 cfg d) (fun _ => phase4 cfg d))) n st) ∧
    (∀ (e : Nat × St) (f : Unit → ReqM Unit) (n : Nat) (st : St),
      reqBind (fun _ _ => Except.error e) f n st = Except.error e) :=
  ⟨prepare_today_eq_phases, fun _ _ _ _ => rfl⟩

/-- C8 counterexample: `list_tasks(ctx = 10, status = "all")` for user 1
returns a `done` task that lives in context 20 — a task of another context
— because the `||` clauses of the built filter are not scoped by the
context (or status-open) conjuncts. -/
theorem c8_list_tasks_counterexample :
    list_tasks_all 1 10 [{ baseTask with owner := 1, context := 20, status := Status.done }]
      = [{ baseTask with owner := 1, context := 20, status := Status.done }] ∧
    ({ baseTask with owner := 1, context := 20, status := Status.done } : TaskRec).context
      ≠ 10 := by
  refine ⟨rfl, by decide⟩

/-- C8 amended: `list_tasks(context_id, status="all")` returns exactly the
calling owner's tasks (the collection list rule scopes by owner) that are
either open-and-in-the-given-context, or done, or cancelled in any context;
archived tasks are excluded, but done/cancelled tasks of the owner's other
contexts are included. -/
theorem c8_list_tasks_amended (uid ctx : Nat) (tasks : List TaskRec) (t : TaskRec) :
    t ∈ list_tasks_all uid ctx tasks ↔
      t ∈ tasks ∧ t.owner = uid ∧
        ((t.context = ctx ∧ t.status = Status.opened) ∨ t.status = Status.done ∨
          t.status = Status.cancelled) := by
  simp only [list_tasks_all, List.mem_filter, tasksListRule, clientFilterAll,
    Bool.and_eq_true, Bool.or_eq_true, decide_eq_true_eq]
  tauto

/-- C9: the two `_ensure_page` copies are not equivalent: every page the
exact-string filter (`date = "D"`, i.e. exactly midnight) accepts is also
accepted by the half-open UTC range filter, but a page stored at
`09:30:00Z` of day 0 (timestamp 34200) is found by the range query and
missed by the exact-string query — the exact-string variant is strictly
narrower. -/
theorem c9_page_filters_not_equivalent :
    (∀ (uid d : Nat) (p : Page), pageMatchExact uid d p = true →
      pageInWindow uid d p = true) ∧
    pageInWindow 0 0 { id := 1, owner := 0, date := 34200 } = true ∧
    pageMatchExact 0 0 { id := 1, owner := 0, date := 34200 } = false := by
  refine ⟨?_, by decide, by decide⟩
  intro uid d p h
  simp only [pageMatchExact, Bool.and_eq_true, decide_eq_true_eq] at h
  simp only [pageInWindow, Bool.and_eq_true, decide_eq_true_eq]
  obtain ⟨h1, h2⟩ := h
  refine ⟨⟨h1, ?_⟩, ?_⟩ <;> omega

/-- C9 witness: a page at exact midnight of day 0 satisfies both filters. -/
theorem c9_page_filters_not_equivalent_witness :
    pageInWindow 0 0 { id := 1, owner := 0, date := 0 } = true :=
  c9_page_filters_not_equivalent.1 0 0 { id := 1, owner := 0, date := 0 } (by decide)
